import Mathlib

set_option maxRecDepth 4000

/-!
Verification of the deadline/send-date engine, template renderer and
markup converter of the gas-accounting-project Apps Script
(src/250730_Acco_ApplyPayBill.js).

Modelling conventions:

* A JavaScript Date constructed as a local-midnight calendar day is
  modelled by a (year, month, day) triple `CalDate` with 1-based month.
  The script only ever compares `getTime()` values of dates that are all
  constructed at local midnight, so the epoch-milliseconds value is an
  injective, order-preserving encoding of the calendar day; we encode a
  day by its rata-die day count `rataDie` instead (`timeOf`).  Holiday
  and workday sets are `List Nat` of such encoded values, mirroring the
  arrays of `getTime()` values built by `parseHolidayData`.
* `getDay()` returns 0 for Sunday .. 6 for Saturday; `dayOfWeekD` below
  is calibrated so that it agrees (1970-01-01 proleptic Gregorian
  arithmetic; verified on known dates below).
* The unbounded `while (true)` loops are modelled with explicit fuel.
  For `getSendDate` the loop runs at most 25 iterations (day 25 down to
  day 1, then the month-boundary check fires), so fuel 25 is exact for
  months 1..12.  For `calculateDeadline` the fuel `7 * (|holidays| + 1)`
  is proved sufficient (`calculateDeadline_terminates`): any 7*(h+1)
  consecutive days contain h+1 Mondays, which cannot all be holidays.
-/

/-- Gregorian leap-year test (JS Date arithmetic uses the proleptic
Gregorian calendar). -/
def isLeap (y : Nat) : Bool :=
  (y % 4 == 0 && y % 100 != 0) || y % 400 == 0

/-- Number of days of month `m` (1-based) of year `y`; 0 for out-of-range
months so that `daysBefore` below has a uniform recurrence. -/
def monthLen (y m : Nat) : Nat :=
  match m with
  | 1 => 31
  | 2 => if isLeap y then 29 else 28
  | 3 => 31
  | 4 => 30
  | 5 => 31
  | 6 => 30
  | 7 => 31
  | 8 => 31
  | 9 => 30
  | 10 => 31
  | 11 => 30
  | 12 => 31
  | _ => 0

/-- Days of year `y` that lie before month `m`. -/
def daysBefore (y : Nat) : Nat → Nat
  | 0 => 0
  | m + 1 => daysBefore y m + monthLen y m

/-- A timezone-naive calendar date (year, 1-based month, day), the
CalendarDate of the data model. -/
structure CalDate where
  y : Nat
  m : Nat
  d : Nat
deriving DecidableEq, Repr

/-- Number of leap years among years 1..n (proleptic Gregorian). -/
def leapsBefore (n : Nat) : Nat := n / 4 - n / 100 + n / 400

/-- Day count of a calendar date (rata die: day 1 is 0001-01-01).  Linear
in `d` within a month by definition. -/
def rataDie (x : CalDate) : Nat :=
  365 * (x.y - 1) + leapsBefore (x.y - 1) + daysBefore x.y x.m + x.d

/-- The encoding of `new Date(y, m-1, d).getTime()` used for membership
tests in the holiday/workday arrays (injective on calendar days, hence
faithful to the epoch-milliseconds comparison in the script). -/
def timeOf (x : CalDate) : Nat := rataDie x

/-- JavaScript `Date.getDay()`: 0 = Sunday .. 6 = Saturday. -/
def dayOfWeekD (x : CalDate) : Nat := rataDie x % 7

/-- In-range calendar date with a positive year. -/
def ValidDate (x : CalDate) : Prop :=
  1 ≤ x.y ∧ 1 ≤ x.m ∧ x.m ≤ 12 ∧ 1 ≤ x.d ∧ x.d ≤ monthLen x.y x.m

instance : DecidablePred ValidDate := fun x => by
  unfold ValidDate; infer_instance

/-- Successor day (JS `date.setDate(date.getDate() + 1)` on a valid date). -/
def nextDay (x : CalDate) : CalDate :=
  if x.d < monthLen x.y x.m then ⟨x.y, x.m, x.d + 1⟩
  else if x.m < 12 then ⟨x.y, x.m + 1, 1⟩
  else ⟨x.y + 1, 1, 1⟩

/-- Predecessor day (JS `date.setDate(date.getDate() - 1)` on a valid date). -/
def prevDay (x : CalDate) : CalDate :=
  if 2 ≤ x.d then ⟨x.y, x.m, x.d - 1⟩
  else if 2 ≤ x.m then ⟨x.y, x.m - 1, monthLen x.y (x.m - 1)⟩
  else ⟨x.y - 1, 12, 31⟩

example : dayOfWeekD ⟨2024, 8, 5⟩ = 1 := by decide
example : dayOfWeekD ⟨2024, 8, 25⟩ = 0 := by decide
example : dayOfWeekD ⟨2024, 8, 23⟩ = 5 := by decide

/-- Skip condition of the `getSendDate` loop:
`(dayOfWeek === 0 || dayOfWeek === 6 || holidays.indexOf(time) !== -1)
 && workdays.indexOf(time) === -1`. -/
def skipSend (holidays workdays : List Nat) (x : CalDate) : Prop :=
  (dayOfWeekD x = 0 ∨ dayOfWeekD x = 6 ∨ timeOf x ∈ holidays)
    ∧ timeOf x ∉ workdays

instance (holidays workdays : List Nat) :
    DecidablePred (skipSend holidays workdays) := fun x => by
  unfold skipSend; infer_instance

/-- Loop body of `getSendDate`: on a skipped day step back one day and
return `none` if the month boundary is crossed, else accept the current
day.  Fuel-indexed; fuel 25 is exact for the real entry point. -/
def sendGo (holidays workdays : List Nat) (month : Nat) :
    Nat → CalDate → Option CalDate
  | 0, _ => none
  | fuel + 1, x =>
    if skipSend holidays workdays x then
      let x' := prevDay x
      if x'.m ≠ month then none
      else sendGo holidays workdays month fuel x'
    else some x

/-- The function `getSendDate(year, month, holidays, workdays)` after the
`Array.isArray` coercion of its set arguments (lines 119-138): anchor at
the 25th of (year, month), step backwards. -/
def getSendDate (year month : Nat) (holidays workdays : List Nat) :
    Option CalDate :=
  sendGo holidays workdays month 25 ⟨year, month, 25⟩

/-- A dynamically typed JavaScript argument, to model the
`Array.isArray(holidays) ? holidays : []` coercion (lines 117-118). -/
inductive JsVal where
  | arr (xs : List Nat)
  | jsNull
  | undef
  | num (n : Nat)
  | str (s : String)
deriving DecidableEq

/-- JavaScript `Array.isArray`. -/
def jsIsArray : JsVal → Bool
  | .arr _ => true
  | _ => false

/-- Coercion applied to each set argument: the array itself if it is an
array, the empty array otherwise. -/
def coerceArr (v : JsVal) : List Nat :=
  match v with
  | .arr xs => xs
  | _ => []

/-- The public `getSendDate` including its argument coercion (lines
116-118 of the source). -/
def getSendDateJS (year month : Nat) (holidays workdays : JsVal) :
    Option CalDate :=
  getSendDate year month (coerceArr holidays) (coerceArr workdays)

/-- Acceptance condition of the `calculateDeadline` loop: a compulsory
workday, or an ordinary weekday that is not a holiday. -/
def acceptDeadline (holidays workdays : List Nat) (x : CalDate) : Prop :=
  timeOf x ∈ workdays ∨
    ¬(dayOfWeekD x = 6 ∨ dayOfWeekD x = 0 ∨ timeOf x ∈ holidays)

instance (holidays workdays : List Nat) :
    DecidablePred (acceptDeadline holidays workdays) := fun x => by
  unfold acceptDeadline; infer_instance

/-- Loop body of `calculateDeadline` (lines 316-327): break on a workday;
on a weekend or holiday step forward one day; else break. -/
def deadlineGo (holidays workdays : List Nat) :
    Nat → CalDate → Option CalDate
  | 0, _ => none
  | fuel + 1, x =>
    if timeOf x ∈ workdays then some x
    else if dayOfWeekD x = 6 ∨ dayOfWeekD x = 0 ∨ timeOf x ∈ holidays then
      deadlineGo holidays workdays fuel (nextDay x)
    else some x

/-- JS `new Date(year, month, 5)` with 1-based `month` in 1..12: the 5th
of the following month (month = 12 normalizes to January of year+1). -/
def deadlineAnchor (year month : Nat) : CalDate :=
  if month < 12 then ⟨year, month + 1, 5⟩ else ⟨year + 1, 1, 5⟩

/-- The resolved deadline day of `calculateDeadline`, with the fuel that
`calculateDeadline_terminates` proves sufficient. -/
def deadlineDate (year month : Nat) (holidays workdays : List Nat) :
    Option CalDate :=
  deadlineGo holidays workdays (7 * (holidays.length + 1))
    (deadlineAnchor year month)

/-- Decimal digit string of a natural number (JS number-to-string
coercion), fuel-indexed for kernel evaluability. -/
def natStrGo : Nat → Nat → List Char
  | 0, _ => []
  | fuel + 1, n =>
    if n < 10 then [Nat.digitChar n]
    else natStrGo fuel (n / 10) ++ [Nat.digitChar (n % 10)]

/-- Decimal digit string of a natural number. -/
def natStr (n : Nat) : List Char := natStrGo (n + 1) n

/-- ROC-formatted date string (lines 328-331):
rocYear = getFullYear() - 1911, then 年/月/日. -/
def formatROC (x : CalDate) : String :=
  ⟨natStr (x.y - 1911) ++ '年' :: natStr x.m ++ '月' :: natStr x.d ++ ['日']⟩

/-- The function `calculateDeadline(year, month, holidays, workdays)`.
The `none` fallback is unreachable (`calculateDeadline_terminates`); it
renders the anchor so the function stays total. -/
def calculateDeadline (year month : Nat) (holidays workdays : List Nat) :
    String :=
  match deadlineDate year month holidays workdays with
  | some x => formatROC x
  | none => formatROC (deadlineAnchor year month)

example : calculateDeadline 2024 7 [] [] = "113年8月5日" := by decide
example : calculateDeadline 2024 7 [timeOf ⟨2024, 8, 5⟩] [] = "113年8月6日" := by
  decide
example :
    calculateDeadline 2024 7 [timeOf ⟨2024, 8, 5⟩] [timeOf ⟨2024, 8, 5⟩] =
      "113年8月5日" := by decide
example : getSendDate 2024 8 [] [] = some ⟨2024, 8, 23⟩ := by decide
example :
    getSendDate 2024 8 [timeOf ⟨2024, 8, 24⟩, timeOf ⟨2024, 8, 25⟩] [] =
      some ⟨2024, 8, 23⟩ := by decide

/-! ### Calendar lemmas -/

theorem monthLen_pos {y m : Nat} (h1 : 1 ≤ m) (h2 : m ≤ 12) :
    1 ≤ monthLen y m := by
  interval_cases m <;> simp [monthLen] <;> split <;> omega

theorem monthLen_ge_28 {y m : Nat} (h1 : 1 ≤ m) (h2 : m ≤ 12) :
    28 ≤ monthLen y m := by
  interval_cases m <;> simp [monthLen] <;> split <;> omega

theorem leaps_succ (y : Nat) (hy : 1 ≤ y) :
    leapsBefore y = leapsBefore (y - 1) + (if isLeap y then 1 else 0) := by
  have h : (isLeap y = true) ↔ ((y % 4 = 0 ∧ ¬(y % 100 = 0)) ∨ y % 400 = 0) := by
    simp [isLeap]
  unfold leapsBefore
  split
  case isTrue ht =>
    have := h.mp ht
    omega
  case isFalse hf =>
    have : ¬((y % 4 = 0 ∧ ¬(y % 100 = 0)) ∨ y % 400 = 0) :=
      fun hc => hf (h.mpr hc)
    omega

theorem daysBefore_year (y : Nat) :
    daysBefore y 12 + 31 = 365 + (if isLeap y then 1 else 0) := by
  simp [daysBefore, monthLen]
  split <;> omega

theorem rataDie_nextDay {x : CalDate} (hx : ValidDate x) :
    rataDie (nextDay x) = rataDie x + 1 := by
  obtain ⟨hy, hm1, hm2, hd1, hd2⟩ := hx
  unfold nextDay
  split
  case isTrue h =>
    simp [rataDie]
    omega
  case isFalse h =>
    have hdl : x.d = monthLen x.y x.m := by omega
    split
    case isTrue h2 =>
      simp [rataDie, daysBefore]
      omega
    case isFalse h2 =>
      have hm12 : x.m = 12 := by omega
      have h31 : x.d = 31 := by rw [hdl, hm12]; simp [monthLen]
      simp [rataDie, h31, hm12]
      have hdb : daysBefore (x.y + 1) 1 = 0 := by simp [daysBefore, monthLen]
      rw [hdb]
      have hyr := daysBefore_year x.y
      have hls := leaps_succ x.y hy
      generalize daysBefore x.y 12 = db at hyr
      generalize leapsBefore x.y = la at hls ⊢
      generalize leapsBefore (x.y - 1) = lb at hls ⊢
      cases hl : isLeap x.y <;> simp [hl] at hyr hls <;> omega

theorem nextDay_valid {x : CalDate} (hx : ValidDate x) :
    ValidDate (nextDay x) := by
  obtain ⟨hy, hm1, hm2, hd1, hd2⟩ := hx
  unfold nextDay
  split
  case isTrue h =>
    show 1 ≤ x.y ∧ 1 ≤ x.m ∧ x.m ≤ 12 ∧ 1 ≤ x.d + 1 ∧
      x.d + 1 ≤ monthLen x.y x.m
    exact ⟨hy, hm1, hm2, by omega, by omega⟩
  case isFalse h =>
    split
    case isTrue h2 =>
      show 1 ≤ x.y ∧ 1 ≤ x.m + 1 ∧ x.m + 1 ≤ 12 ∧ 1 ≤ 1 ∧
        1 ≤ monthLen x.y (x.m + 1)
      exact ⟨hy, by omega, by omega, le_refl 1,
        monthLen_pos (by omega) (by omega)⟩
    case isFalse h2 =>
      show 1 ≤ x.y + 1 ∧ 1 ≤ 1 ∧ 1 ≤ 12 ∧ 1 ≤ 1 ∧ 1 ≤ monthLen (x.y + 1) 1
      exact ⟨by omega, le_refl 1, by omega, le_refl 1, by simp [monthLen]⟩

theorem iterate_nextDay_valid (k : Nat) {x : CalDate} (hx : ValidDate x) :
    ValidDate (nextDay^[k] x) := by
  induction k generalizing x with
  | zero => simpa using hx
  | succ n ih =>
    rw [Function.iterate_succ_apply]
    exact ih (nextDay_valid hx)

theorem rataDie_iterate (k : Nat) {x : CalDate} (hx : ValidDate x) :
    rataDie (nextDay^[k] x) = rataDie x + k := by
  induction k generalizing x with
  | zero => simp
  | succ n ih =>
    rw [Function.iterate_succ_apply]
    rw [ih (nextDay_valid hx), rataDie_nextDay hx]
    omega

theorem prevDay_in_month {x : CalDate} (hd : 2 ≤ x.d) :
    prevDay x = ⟨x.y, x.m, x.d - 1⟩ := by
  unfold prevDay
  rw [if_pos hd]

theorem prevDay_month_ne {y m : Nat} (hm1 : 1 ≤ m) (hm2 : m ≤ 12) :
    (prevDay ⟨y, m, 1⟩).m ≠ m := by
  unfold prevDay
  norm_num
  split
  case isTrue h2 => simp; omega
  case isFalse h2 => simp; omega

/-! ### Characterization of the getSendDate loop -/

/-- Greatest non-skipped day of the month that is at most `d`
(day-of-month form of the backward scan). -/
def bestSend (holidays workdays : List Nat) (y m : Nat) : Nat → Option Nat
  | 0 => none
  | d + 1 =>
    if skipSend holidays workdays ⟨y, m, d + 1⟩ then
      bestSend holidays workdays y m d
    else some (d + 1)

theorem sendGo_eq_bestSend (holidays workdays : List Nat) (y m : Nat)
    (hm1 : 1 ≤ m) (hm2 : m ≤ 12) :
    ∀ d fuel : Nat, 1 ≤ d → d ≤ fuel →
      sendGo holidays workdays m fuel ⟨y, m, d⟩ =
        (bestSend holidays workdays y m d).map (fun k => ⟨y, m, k⟩) := by
  intro d
  induction d with
  | zero => intro fuel h1 _; omega
  | succ n ih =>
    intro fuel h1 h2
    obtain ⟨f, rfl⟩ : ∃ f, fuel = f + 1 := ⟨fuel - 1, by omega⟩
    by_cases hs : skipSend holidays workdays ⟨y, m, n + 1⟩
    · rw [show sendGo holidays workdays m (f + 1) ⟨y, m, n + 1⟩ =
          (if (prevDay ⟨y, m, n + 1⟩).m ≠ m then none
           else sendGo holidays workdays m f (prevDay ⟨y, m, n + 1⟩)) by
        simp [sendGo, hs]]
      rw [show bestSend holidays workdays y m (n + 1) =
          bestSend holidays workdays y m n by simp [bestSend, hs]]
      by_cases hn : 1 ≤ n
      · have hprev : prevDay ⟨y, m, n + 1⟩ = ⟨y, m, n⟩ := by
          simp [prevDay, show 2 ≤ n + 1 by omega]
        rw [hprev]
        simp only [show ((⟨y, m, n⟩ : CalDate).m ≠ m) = False by simp,
          if_false]
        exact ih f hn (by omega)
      · have hn0 : n = 0 := by omega
        subst hn0
        rw [if_pos (prevDay_month_ne hm1 hm2)]
        simp [bestSend]
    · rw [show sendGo holidays workdays m (f + 1) ⟨y, m, n + 1⟩ =
          some ⟨y, m, n + 1⟩ by simp [sendGo, hs]]
      rw [show bestSend holidays workdays y m (n + 1) = some (n + 1) by
        simp [bestSend, hs]]
      simp

theorem getSendDate_eq_bestSend (year month : Nat)
    (holidays workdays : List Nat) (hm1 : 1 ≤ month) (hm2 : month ≤ 12) :
    getSendDate year month holidays workdays =
      (bestSend holidays workdays year month 25).map
        (fun k => ⟨year, month, k⟩) := by
  exact sendGo_eq_bestSend holidays workdays year month hm1 hm2 25 25
    (by omega) (by omega)

theorem bestSend_none_iff (holidays workdays : List Nat) (y m : Nat) :
    ∀ d, (bestSend holidays workdays y m d = none ↔
      ∀ k, 1 ≤ k → k ≤ d → skipSend holidays workdays ⟨y, m, k⟩) := by
  intro d
  induction d with
  | zero =>
    constructor
    · intro _ k h1 h2
      exact absurd h2 (by omega)
    · intro _
      rfl
  | succ n ih =>
    by_cases hs : skipSend holidays workdays ⟨y, m, n + 1⟩
    · rw [show bestSend holidays workdays y m (n + 1) =
        bestSend holidays workdays y m n by simp [bestSend, hs]]
      rw [ih]
      constructor
      · intro h k h1 h2
        by_cases hk : k ≤ n
        · exact h k h1 hk
        · have : k = n + 1 := by omega
          subst this; exact hs
      · intro h k h1 h2
        exact h k h1 (by omega)
    · rw [show bestSend holidays workdays y m (n + 1) = some (n + 1) by
        simp [bestSend, hs]]
      constructor
      · intro h
        exact absurd h (Option.some_ne_none _)
      · intro h
        exact absurd (h (n + 1) (by omega) (le_refl _)) hs

theorem bestSend_some (holidays workdays : List Nat) (y m : Nat) :
    ∀ d k, bestSend holidays workdays y m d = some k →
      1 ≤ k ∧ k ≤ d ∧ ¬skipSend holidays workdays ⟨y, m, k⟩ ∧
        ∀ j, k < j → j ≤ d → skipSend holidays workdays ⟨y, m, j⟩ := by
  intro d
  induction d with
  | zero => simp [bestSend]
  | succ n ih =>
    intro k hk
    by_cases hs : skipSend holidays workdays ⟨y, m, n + 1⟩
    · rw [show bestSend holidays workdays y m (n + 1) =
        bestSend holidays workdays y m n by simp [bestSend, hs]] at hk
      obtain ⟨h1, h2, h3, h4⟩ := ih k hk
      refine ⟨h1, by omega, h3, ?_⟩
      intro j hj1 hj2
      by_cases hj : j ≤ n
      · exact h4 j hj1 hj
      · have : j = n + 1 := by omega
        subst this; exact hs
    · rw [show bestSend holidays workdays y m (n + 1) = some (n + 1) by
        simp [bestSend, hs]] at hk
      obtain rfl : n + 1 = k := by simpa using hk
      exact ⟨by omega, le_refl _, hs, by omega⟩

/-! ### Deadline loop: step lemmas and termination -/

theorem deadlineGo_accept (holidays workdays : List Nat) (fuel : Nat)
    (x : CalDate) (h : acceptDeadline holidays workdays x) :
    deadlineGo holidays workdays (fuel + 1) x = some x := by
  rw [show deadlineGo holidays workdays (fuel + 1) x =
    (if timeOf x ∈ workdays then some x
     else if dayOfWeekD x = 6 ∨ dayOfWeekD x = 0 ∨ timeOf x ∈ holidays then
       deadlineGo holidays workdays fuel (nextDay x)
     else some x) from rfl]
  rcases h with h | h
  · rw [if_pos h]
  · by_cases hwk : timeOf x ∈ workdays
    · rw [if_pos hwk]
    · rw [if_neg hwk, if_neg h]

theorem deadlineGo_skip (holidays workdays : List Nat) (fuel : Nat)
    (x : CalDate) (h : ¬acceptDeadline holidays workdays x) :
    deadlineGo holidays workdays (fuel + 1) x =
      deadlineGo holidays workdays fuel (nextDay x) := by
  unfold acceptDeadline at h
  push_neg at h
  obtain ⟨hw, hwk⟩ := h
  rw [show deadlineGo holidays workdays (fuel + 1) x =
    (if timeOf x ∈ workdays then some x
     else if dayOfWeekD x = 6 ∨ dayOfWeekD x = 0 ∨ timeOf x ∈ holidays then
       deadlineGo holidays workdays fuel (nextDay x)
     else some x) from rfl]
  rw [if_neg hw, if_pos hwk]

theorem deadlineGo_of_exists (holidays workdays : List Nat) :
    ∀ (n : Nat) (x : CalDate),
      (∃ k, k < n ∧ acceptDeadline holidays workdays (nextDay^[k] x)) →
      ∃ r, deadlineGo holidays workdays n x = some r := by
  intro n
  induction n with
  | zero =>
    intro x ⟨k, hk, _⟩
    omega
  | succ n ih =>
    intro x ⟨k, hk, hacc⟩
    by_cases h0 : acceptDeadline holidays workdays x
    · exact ⟨x, deadlineGo_accept holidays workdays n x h0⟩
    · have hk0 : k ≠ 0 := by
        intro h
        subst h
        simp at hacc
        exact h0 hacc
      obtain ⟨k', rfl⟩ : ∃ k', k = k' + 1 := ⟨k - 1, by omega⟩
      rw [deadlineGo_skip holidays workdays n x h0]
      apply ih (nextDay x)
      refine ⟨k', by omega, ?_⟩
      rwa [← Function.iterate_succ_apply]

theorem mondays_in_range (holidays : List Nat) (x : CalDate)
    (hx : ValidDate x) :
    ∃ k, k < 7 * (holidays.length + 1) ∧
      dayOfWeekD (nextDay^[k] x) = 1 ∧
      timeOf (nextDay^[k] x) ∉ holidays := by
  set R := rataDie x with hR
  set off := (8 - R % 7) % 7 with hoff
  have hoff7 : off < 7 := by omega
  have hmon : ∀ i : Nat, (R + (off + 7 * i)) % 7 = 1 := by
    intro i
    omega
  by_contra hcon
  push_neg at hcon
  have hall : ∀ i : Nat, i ≤ holidays.length →
      (R + off + 7 * i) ∈ holidays := by
    intro i hi
    have hk7 : off + 7 * i < 7 * (holidays.length + 1) := by omega
    have hdow : dayOfWeekD (nextDay^[off + 7 * i] x) = 1 := by
      unfold dayOfWeekD
      rw [rataDie_iterate (off + 7 * i) hx, ← hR]
      exact hmon i
    have hmem := hcon (off + 7 * i) hk7 hdow
    unfold timeOf at hmem
    rw [rataDie_iterate (off + 7 * i) hx, ← hR] at hmem
    have h2 : R + off + 7 * i = R + (off + 7 * i) := by omega
    rw [h2]
    exact hmem
  have hinj : Function.Injective
      (fun i : Fin (holidays.length + 1) => R + off + 7 * (i : Nat)) := by
    intro a b hab
    simp at hab
    exact Fin.ext (by omega)
  have hsub : (Finset.univ.image
      (fun i : Fin (holidays.length + 1) => R + off + 7 * (i : Nat)))
      ⊆ holidays.toFinset := by
    intro t ht
    simp at ht
    obtain ⟨i, hi, rfl⟩ := ht
    exact List.mem_toFinset.mpr (hall i (by omega))
  have hcard1 : (Finset.univ.image
      (fun i : Fin (holidays.length + 1) => R + off + 7 * (i : Nat))).card
      = holidays.length + 1 := by
    rw [Finset.card_image_of_injective _ hinj]
    simp
  have hcard2 := Finset.card_le_card hsub
  have hcard3 := List.toFinset_card_le holidays
  omega

theorem deadlineAnchor_valid (year month : Nat) (hy : 1 ≤ year)
    (hm1 : 1 ≤ month) (hm2 : month ≤ 12) :
    ValidDate (deadlineAnchor year month) := by
  unfold deadlineAnchor
  split
  case isTrue h =>
    show 1 ≤ year ∧ 1 ≤ month + 1 ∧ month + 1 ≤ 12 ∧ 1 ≤ 5 ∧
      5 ≤ monthLen year (month + 1)
    have := monthLen_ge_28 (y := year) (m := month + 1) (by omega) (by omega)
    exact ⟨hy, by omega, by omega, by omega, by omega⟩
  case isFalse h =>
    show 1 ≤ year + 1 ∧ 1 ≤ 1 ∧ 1 ≤ 12 ∧ 1 ≤ 5 ∧ 5 ≤ monthLen (year + 1) 1
    exact ⟨by omega, le_refl 1, by omega, by omega, by simp [monthLen]⟩

/-- Shared helper: the forward scan of `calculateDeadline` accepts some
day within its fuel bound. -/
theorem deadlineDate_isSome (year month : Nat)
    (holidays workdays : List Nat) (hy : 1 ≤ year) (hm1 : 1 ≤ month)
    (hm2 : month ≤ 12) :
    ∃ x, deadlineDate year month holidays workdays = some x := by
  have hv := deadlineAnchor_valid year month hy hm1 hm2
  obtain ⟨k, hk, hmon, hnot⟩ :=
    mondays_in_range holidays (deadlineAnchor year month) hv
  apply deadlineGo_of_exists
  refine ⟨k, hk, Or.inr ?_⟩
  intro hc
  rcases hc with h6 | h0 | hh
  · rw [hmon] at h6; omega
  · rw [hmon] at h0; omega
  · exact hnot hh

/-! ### Claim theorems: resolver loops -/

/-- C5: for every finite holiday and workday list and every month in
range, the forward scan of `calculateDeadline` starting at the 5th of the
following month reaches an accepted day after finitely many one-day
steps (within fuel `7 * (|holidays| + 1)`), even across month
boundaries, because only weekends and the finitely many holiday dates
can be skipped. -/
theorem calculateDeadline_terminates (year month : Nat)
    (holidays workdays : List Nat) (hy : 1 ≤ year) (hm1 : 1 ≤ month)
    (hm2 : month ≤ 12) :
    ∃ x, deadlineDate year month holidays workdays = some x ∧
      calculateDeadline year month holidays workdays = formatROC x := by
  obtain ⟨x, hx⟩ := deadlineDate_isSome year month holidays workdays hy hm1 hm2
  refine ⟨x, hx, ?_⟩
  unfold calculateDeadline
  rw [hx]

theorem calculateDeadline_terminates_w :
    ∃ x, deadlineDate 2024 12 [timeOf ⟨2025, 1, 6⟩] [] = some x ∧
      calculateDeadline 2024 12 [timeOf ⟨2025, 1, 6⟩] [] = formatROC x := by
  exact calculateDeadline_terminates 2024 12 [timeOf ⟨2025, 1, 6⟩] []
    (by decide) (by decide) (by decide)

/-- C4: `getSendDate` returns `none` exactly when every day of the month
from the 25th downward is skipped (i.e. the backward scan crosses into
the previous month before acceptance); otherwise it returns the first
non-skipped day found scanning backward from the 25th, which lies in
(year, month) with day at most 25. -/
theorem getSendDate_characterization (year month : Nat)
    (holidays workdays : List Nat) (hm1 : 1 ≤ month) (hm2 : month ≤ 12) :
    (getSendDate year month holidays workdays = none ↔
      ∀ k, 1 ≤ k → k ≤ 25 → skipSend holidays workdays ⟨year, month, k⟩) ∧
    (∀ r, getSendDate year month holidays workdays = some r →
      ∃ k, r = ⟨year, month, k⟩ ∧ 1 ≤ k ∧ k ≤ 25 ∧
        ¬skipSend holidays workdays ⟨year, month, k⟩ ∧
        ∀ j, k < j → j ≤ 25 → skipSend holidays workdays ⟨year, month, j⟩) := by
  rw [getSendDate_eq_bestSend year month holidays workdays hm1 hm2]
  constructor
  · rw [Option.map_eq_none']
    exact bestSend_none_iff holidays workdays year month 25
  · intro r hr
    rw [Option.map_eq_some'] at hr
    obtain ⟨k, hk, rfl⟩ := hr
    obtain ⟨h1, h2, h3, h4⟩ := bestSend_some holidays workdays year month 25 k hk
    exact ⟨k, rfl, h1, h2, h3, h4⟩

theorem getSendDate_characterization_w :
    (getSendDate 2024 8 [] [] = none ↔
      ∀ k, 1 ≤ k → k ≤ 25 → skipSend [] [] ⟨2024, 8, k⟩) ∧
    (∀ r, getSendDate 2024 8 [] [] = some r →
      ∃ k, r = ⟨2024, 8, k⟩ ∧ 1 ≤ k ∧ k ≤ 25 ∧
        ¬skipSend [] [] ⟨2024, 8, k⟩ ∧
        ∀ j, k < j → j ≤ 25 → skipSend [] [] ⟨2024, 8, j⟩) :=
  getSendDate_characterization 2024 8 [] [] (by decide) (by decide)

/-- C2: a candidate date whose time is in the workday list is accepted
immediately by the loop of `getSendDate` and by the loop of
`calculateDeadline` and is never skipped, even if it is a weekend or a
holiday; in particular a simultaneous holiday-and-workday on the
deadline anchor is kept (WorkdaySet wins). -/
theorem workday_never_skipped :
    (∀ (holidays workdays : List Nat) (month fuel : Nat) (x : CalDate),
      timeOf x ∈ workdays →
        sendGo holidays workdays month (fuel + 1) x = some x ∧
        deadlineGo holidays workdays (fuel + 1) x = some x) ∧
    calculateDeadline 2024 7 [timeOf ⟨2024, 8, 5⟩] [timeOf ⟨2024, 8, 5⟩] =
      "113年8月5日" := by
  constructor
  · intro holidays workdays month fuel x hmem
    constructor
    · rw [show sendGo holidays workdays month (fuel + 1) x =
        (if skipSend holidays workdays x then
          (if (prevDay x).m ≠ month then none
           else sendGo holidays workdays month fuel (prevDay x))
         else some x) from rfl]
      rw [if_neg (fun hskip => hskip.2 hmem)]
    · rw [show deadlineGo holidays workdays (fuel + 1) x =
        (if timeOf x ∈ workdays then some x
         else if dayOfWeekD x = 6 ∨ dayOfWeekD x = 0 ∨ timeOf x ∈ holidays then
           deadlineGo holidays workdays fuel (nextDay x)
         else some x) from rfl]
      rw [if_pos hmem]
  · decide

theorem workday_never_skipped_w :
    (sendGo [timeOf ⟨2024, 8, 25⟩] [timeOf ⟨2024, 8, 25⟩] 8 1 ⟨2024, 8, 25⟩ =
      some ⟨2024, 8, 25⟩ ∧
     deadlineGo [timeOf ⟨2024, 8, 25⟩] [timeOf ⟨2024, 8, 25⟩] 1 ⟨2024, 8, 25⟩ =
      some ⟨2024, 8, 25⟩) :=
  workday_never_skipped.1 [timeOf ⟨2024, 8, 25⟩] [timeOf ⟨2024, 8, 25⟩] 8 0
    ⟨2024, 8, 25⟩ (by decide)

/-- C7: concrete deadline resolutions for July 2024 (anchor Monday
2024-08-05), and in general the returned string is the ROC rendering
of the resolved deadline date: "{year-1911}年{month}月{day}日". -/
theorem calculateDeadline_format :
    calculateDeadline 2024 7 [] [] = "113年8月5日" ∧
    calculateDeadline 2024 7 [timeOf ⟨2024, 8, 5⟩] [] = "113年8月6日" ∧
    ∀ (year month : Nat) (holidays workdays : List Nat),
      1 ≤ year → 1 ≤ month → month ≤ 12 →
      ∃ x, deadlineDate year month holidays workdays = some x ∧
        calculateDeadline year month holidays workdays = formatROC x := by
  refine ⟨by decide, by decide, ?_⟩
  intro year month holidays workdays hy hm1 hm2
  obtain ⟨x, hx⟩ := deadlineDate_isSome year month holidays workdays hy hm1 hm2
  refine ⟨x, hx, ?_⟩
  unfold calculateDeadline
  rw [hx]

theorem calculateDeadline_format_w :
    ∃ x, deadlineDate 2024 7 [] [] = some x ∧
      calculateDeadline 2024 7 [] [] = formatROC x :=
  calculateDeadline_format.2.2 2024 7 [] [] (by decide) (by decide) (by decide)

/-- C10: if the holidays or workdays argument of the public
`getSendDate` is not an array, it is coerced to the empty array, so the
result coincides with the empty-set computation. -/
theorem getSendDate_coerces_nonarray (year month : Nat)
    (holidays workdays : JsVal) (hh : jsIsArray holidays = false)
    (hw : jsIsArray workdays = false) :
    getSendDateJS year month holidays workdays =
      getSendDate year month [] [] := by
  cases holidays <;> cases workdays <;>
    simp_all [jsIsArray, getSendDateJS, coerceArr]

theorem getSendDate_coerces_nonarray_w :
    getSendDateJS 2024 8 JsVal.jsNull JsVal.undef =
      getSendDate 2024 8 [] [] :=
  getSendDate_coerces_nonarray 2024 8 JsVal.jsNull JsVal.undef
    (by decide) (by decide)

/-! ### Empty-set resolver behaviour (C1) -/

theorem rataDie_dayShift (y m d : Nat) :
    rataDie ⟨y, m, d⟩ = rataDie ⟨y, m, 0⟩ + d := by
  simp [rataDie]

theorem skipSend_empty (x : CalDate) :
    skipSend [] [] x ↔ (dayOfWeekD x = 0 ∨ dayOfWeekD x = 6) := by
  simp [skipSend, timeOf]

theorem dayOfWeekD_day (y m d : Nat) :
    dayOfWeekD ⟨y, m, d⟩ = (rataDie ⟨y, m, 0⟩ + d) % 7 := by
  unfold dayOfWeekD
  rw [rataDie_dayShift]

theorem bestSend_empty (y m : Nat) :
    ∃ d, bestSend [] [] y m 25 = some d ∧ 23 ≤ d ∧ d ≤ 25 ∧
      dayOfWeekD ⟨y, m, d⟩ ≠ 0 ∧ dayOfWeekD ⟨y, m, d⟩ ≠ 6 ∧
      ∀ j, d < j → j ≤ 25 →
        (dayOfWeekD ⟨y, m, j⟩ = 0 ∨ dayOfWeekD ⟨y, m, j⟩ = 6) := by
  set B := rataDie ⟨y, m, 0⟩ with hB
  have hd : ∀ d, dayOfWeekD ⟨y, m, d⟩ = (B + d) % 7 := fun d => by
    rw [dayOfWeekD_day, ← hB]
  have h25 : bestSend [] [] y m 25 =
      if skipSend [] [] ⟨y, m, 25⟩ then bestSend [] [] y m 24
      else some 25 := rfl
  have h24 : bestSend [] [] y m 24 =
      if skipSend [] [] ⟨y, m, 24⟩ then bestSend [] [] y m 23
      else some 24 := rfl
  have h23 : bestSend [] [] y m 23 =
      if skipSend [] [] ⟨y, m, 23⟩ then bestSend [] [] y m 22
      else some 23 := rfl
  have hskip : ∀ d, skipSend [] [] ⟨y, m, d⟩ ↔
      ((B + d) % 7 = 0 ∨ (B + d) % 7 = 6) := fun d => by
    rw [skipSend_empty, hd d]
  have hr : B % 7 = 2 ∨ B % 7 = 3 ∨
      (B % 7 = 0 ∨ B % 7 = 1 ∨ B % 7 = 4 ∨ B % 7 = 5 ∨ B % 7 = 6) := by
    omega
  rcases hr with h | h | h
  · -- 25th is Saturday: step back once to Friday the 24th
    have hs25 : skipSend [] [] ⟨y, m, 25⟩ := by rw [hskip 25]; omega
    have hn24 : ¬skipSend [] [] ⟨y, m, 24⟩ := by rw [hskip 24]; omega
    refine ⟨24, ?_, by omega, by omega, ?_, ?_, ?_⟩
    · rw [h25, if_pos hs25, h24, if_neg hn24]
    · rw [hd 24]; omega
    · rw [hd 24]; omega
    · intro j h1 h2
      have hj : j = 25 := by omega
      subst hj
      rw [hd 25]; omega
  · -- 25th is Sunday and 24th Saturday: step back twice to Friday the 23rd
    have hs25 : skipSend [] [] ⟨y, m, 25⟩ := by rw [hskip 25]; omega
    have hs24 : skipSend [] [] ⟨y, m, 24⟩ := by rw [hskip 24]; omega
    have hn23 : ¬skipSend [] [] ⟨y, m, 23⟩ := by rw [hskip 23]; omega
    refine ⟨23, ?_, by omega, by omega, ?_, ?_, ?_⟩
    · rw [h25, if_pos hs25, h24, if_pos hs24, h23, if_neg hn23]
    · rw [hd 23]; omega
    · rw [hd 23]; omega
    · intro j h1 h2
      have hj : j = 24 ∨ j = 25 := by omega
      rcases hj with hj | hj <;> subst hj <;> rw [hd] <;> omega
  · -- the 25th itself is a weekday
    have hn25 : ¬skipSend [] [] ⟨y, m, 25⟩ := by rw [hskip 25]; omega
    refine ⟨25, ?_, by omega, by omega, ?_, ?_, ?_⟩
    · rw [h25, if_neg hn25]
    · rw [hd 25]; omega
    · rw [hd 25]; omega
    · intro j h1 h2
      omega

theorem deadlineGo_empty (a : CalDate) (hv : ValidDate a) :
    ∃ k, k ≤ 2 ∧ deadlineGo [] [] 7 a = some (nextDay^[k] a) ∧
      dayOfWeekD (nextDay^[k] a) ≠ 0 ∧ dayOfWeekD (nextDay^[k] a) ≠ 6 ∧
      ∀ j, j < k →
        (dayOfWeekD (nextDay^[j] a) = 0 ∨ dayOfWeekD (nextDay^[j] a) = 6) := by
  set A := rataDie a with hA
  have hdw : ∀ j, dayOfWeekD (nextDay^[j] a) = (A + j) % 7 := fun j => by
    unfold dayOfWeekD
    rw [rataDie_iterate j hv, ← hA]
  have hacc : ∀ j, (A + j) % 7 ≠ 0 → (A + j) % 7 ≠ 6 →
      acceptDeadline [] [] (nextDay^[j] a) := by
    intro j h0 h6
    refine Or.inr ?_
    intro hc
    rcases hc with hc | hc | hc
    · rw [hdw j] at hc; exact h6 hc
    · rw [hdw j] at hc; exact h0 hc
    · simp at hc
  have hnacc : ∀ j, ((A + j) % 7 = 0 ∨ (A + j) % 7 = 6) →
      ¬acceptDeadline [] [] (nextDay^[j] a) := by
    intro j hj hacc'
    rcases hacc' with hm | hn
    · simp [timeOf] at hm
    · apply hn
      rcases hj with hj | hj
      · exact Or.inr (Or.inl (by rw [hdw j]; exact hj))
      · exact Or.inl (by rw [hdw j]; exact hj)
  have hr : A % 7 = 6 ∨ A % 7 = 0 ∨
      (A % 7 = 1 ∨ A % 7 = 2 ∨ A % 7 = 3 ∨ A % 7 = 4 ∨ A % 7 = 5) := by
    omega
  rcases hr with h | h | h
  · -- anchor on a Saturday: two forward steps to Monday
    have e1 : deadlineGo [] [] 7 a = deadlineGo [] [] 6 (nextDay a) :=
      deadlineGo_skip [] [] 6 a (hnacc 0 (by omega))
    have e2 : deadlineGo [] [] 6 (nextDay a) =
        deadlineGo [] [] 5 (nextDay (nextDay a)) :=
      deadlineGo_skip [] [] 5 (nextDay a) (hnacc 1 (by omega))
    have e3 : deadlineGo [] [] 5 (nextDay (nextDay a)) =
        some (nextDay (nextDay a)) :=
      deadlineGo_accept [] [] 4 (nextDay (nextDay a))
        (hacc 2 (by omega) (by omega))
    refine ⟨2, by omega, ?_, ?_, ?_, ?_⟩
    · rw [e1, e2, e3]; rfl
    · rw [hdw 2]; omega
    · rw [hdw 2]; omega
    · intro j hj
      have : j = 0 ∨ j = 1 := by omega
      rcases this with hj' | hj' <;> subst hj' <;> rw [hdw] <;> omega
  · -- anchor on a Sunday: one forward step to Monday
    have e1 : deadlineGo [] [] 7 a = deadlineGo [] [] 6 (nextDay a) :=
      deadlineGo_skip [] [] 6 a (hnacc 0 (by omega))
    have e2 : deadlineGo [] [] 6 (nextDay a) = some (nextDay a) :=
      deadlineGo_accept [] [] 5 (nextDay a) (hacc 1 (by omega) (by omega))
    refine ⟨1, by omega, ?_, ?_, ?_, ?_⟩
    · rw [e1, e2]; rfl
    · rw [hdw 1]; omega
    · rw [hdw 1]; omega
    · intro j hj
      have : j = 0 := by omega
      subst this
      rw [hdw]; omega
  · -- anchor already on a weekday
    have e1 : deadlineGo [] [] 7 a = some a :=
      deadlineGo_accept [] [] 6 a (hacc 0 (by omega) (by omega))
    refine ⟨0, by omega, ?_, ?_, ?_, ?_⟩
    · rw [e1]; rfl
    · rw [hdw 0]; omega
    · rw [hdw 0]; omega
    · intro j hj
      omega

/-- C1: with empty holiday and workday sets, `getSendDate` returns the
nearest weekday (Monday-Friday) on or before the 25th of the month, and
`calculateDeadline` resolves and renders the nearest weekday on or
after the 5th of the following month. -/
theorem resolvers_empty_sets (year month : Nat) (hy : 1 ≤ year)
    (hm1 : 1 ≤ month) (hm2 : month ≤ 12) :
    (∃ d, getSendDate year month [] [] = some ⟨year, month, d⟩ ∧ d ≤ 25 ∧
      dayOfWeekD ⟨year, month, d⟩ ≠ 0 ∧ dayOfWeekD ⟨year, month, d⟩ ≠ 6 ∧
      ∀ j, d < j → j ≤ 25 →
        (dayOfWeekD ⟨year, month, j⟩ = 0 ∨
         dayOfWeekD ⟨year, month, j⟩ = 6)) ∧
    (∃ k, k ≤ 2 ∧
      deadlineDate year month [] [] =
        some (nextDay^[k] (deadlineAnchor year month)) ∧
      dayOfWeekD (nextDay^[k] (deadlineAnchor year month)) ≠ 0 ∧
      dayOfWeekD (nextDay^[k] (deadlineAnchor year month)) ≠ 6 ∧
      (∀ j, j < k →
        (dayOfWeekD (nextDay^[j] (deadlineAnchor year month)) = 0 ∨
         dayOfWeekD (nextDay^[j] (deadlineAnchor year month)) = 6)) ∧
      calculateDeadline year month [] [] =
        formatROC (nextDay^[k] (deadlineAnchor year month))) := by
  constructor
  · obtain ⟨d, hbs, hd1, hd2, hw0, hw6, hbet⟩ := bestSend_empty year month
    refine ⟨d, ?_, by omega, hw0, hw6, hbet⟩
    rw [getSendDate_eq_bestSend year month [] [] hm1 hm2, hbs]
    rfl
  · have hv := deadlineAnchor_valid year month hy hm1 hm2
    obtain ⟨k, hk2, hgo, hk0, hk6, hbet⟩ :=
      deadlineGo_empty (deadlineAnchor year month) hv
    have hdd : deadlineDate year month [] [] =
        some (nextDay^[k] (deadlineAnchor year month)) := hgo
    refine ⟨k, hk2, hdd, hk0, hk6, hbet, ?_⟩
    unfold calculateDeadline
    rw [hdd]

theorem resolvers_empty_sets_w :
    (∃ d, getSendDate 2024 8 [] [] = some ⟨2024, 8, d⟩ ∧ d ≤ 25 ∧
      dayOfWeekD ⟨2024, 8, d⟩ ≠ 0 ∧ dayOfWeekD ⟨2024, 8, d⟩ ≠ 6 ∧
      ∀ j, d < j → j ≤ 25 →
        (dayOfWeekD ⟨2024, 8, j⟩ = 0 ∨ dayOfWeekD ⟨2024, 8, j⟩ = 6)) ∧
    (∃ k, k ≤ 2 ∧
      deadlineDate 2024 8 [] [] =
        some (nextDay^[k] (deadlineAnchor 2024 8)) ∧
      dayOfWeekD (nextDay^[k] (deadlineAnchor 2024 8)) ≠ 0 ∧
      dayOfWeekD (nextDay^[k] (deadlineAnchor 2024 8)) ≠ 6 ∧
      (∀ j, j < k →
        (dayOfWeekD (nextDay^[j] (deadlineAnchor 2024 8)) = 0 ∨
         dayOfWeekD (nextDay^[j] (deadlineAnchor 2024 8)) = 6)) ∧
      calculateDeadline 2024 8 [] [] =
        formatROC (nextDay^[k] (deadlineAnchor 2024 8))) :=
  resolvers_empty_sets 2024 8 (by decide) (by decide) (by decide)

/-! ### Holiday cache (C9) -/

/-- Parsed holiday record: the object `\x7b holidays, workdays \x7d`
stored in the cache. -/
structure HolidayData where
  holidays : List Nat
  workdays : List Nat
deriving DecidableEq, Repr

/-- The record with two empty sets. -/
def emptyHolidayData : HolidayData := ⟨[], []⟩

/-- The cache updater `updateHolidayCache` (lines 78-89) over an explicit
property store: on a successful fetch the encoded parse result replaces
the stored string; its internal try/catch makes a fetch failure leave
the store untouched without throwing.  `encode` abstracts
`JSON.stringify(parseHolidayData(icalData))`. -/
def updateHolidayCache (stored : Option String)
    (fetchResult : Except String String) (encode : String → String) :
    Option String :=
  match fetchResult with
  | .ok ical => some (encode ical)
  | .error _ => stored

/-- The function `getCachedHolidayData` (lines 91-110) over an explicit
property store, fetch outcome, and JSON parser: a stored record is
parsed and returned (parse failure caught, yielding empty sets); with no
stored record, one fetch is attempted and the freshly stored string
parsed, every failure path caught and yielding empty sets. -/
def getCachedHolidayData (stored : Option String)
    (fetchResult : Except String String) (encode : String → String)
    (jsonParse : String → Except String HolidayData) : HolidayData :=
  match stored with
  | some c =>
    match jsonParse c with
    | .ok r => r
    | .error _ => emptyHolidayData
  | none =>
    match updateHolidayCache none fetchResult encode with
    | some c2 =>
      match jsonParse c2 with
      | .ok r => r
      | .error _ => emptyHolidayData
    | none => emptyHolidayData

/-- C9: `getCachedHolidayData` never fails: a parseable stored record is
returned without consulting the fetch; a stored record that fails to
parse yields the empty record; with no stored record, a failed fetch or
a failed parse of the fetched data also yields the empty record. -/
theorem getCachedHolidayData_never_fails :
    (∀ (c : String) (f f' : Except String String)
        (e e' : String → String)
        (p : String → Except String HolidayData),
      getCachedHolidayData (some c) f e p =
        getCachedHolidayData (some c) f' e' p) ∧
    (∀ (c : String) (f : Except String String) (e : String → String)
        (p : String → Except String HolidayData) (r : HolidayData),
      p c = .ok r → getCachedHolidayData (some c) f e p = r) ∧
    (∀ (c : String) (f : Except String String) (e : String → String)
        (p : String → Except String HolidayData) (msg : String),
      p c = .error msg →
        getCachedHolidayData (some c) f e p = emptyHolidayData) ∧
    (∀ (e : String → String) (p : String → Except String HolidayData)
        (msg : String),
      getCachedHolidayData none (.error msg) e p = emptyHolidayData) ∧
    (∀ (s : String) (e : String → String)
        (p : String → Except String HolidayData) (msg : String),
      p (e s) = .error msg →
        getCachedHolidayData none (.ok s) e p = emptyHolidayData) := by
  refine ⟨?_, ?_, ?_, ?_, ?_⟩
  · intro c f f' e e' p
    rfl
  · intro c f e p r h
    simp [getCachedHolidayData, h]
  · intro c f e p msg h
    simp [getCachedHolidayData, h]
  · intro e p msg
    rfl
  · intro s e p msg h
    simp [getCachedHolidayData, updateHolidayCache, h]

theorem getCachedHolidayData_never_fails_w :
    getCachedHolidayData none (.ok "BEGIN:VCALENDAR")
      (fun s => s) (fun _ => .error "bad json") = emptyHolidayData :=
  getCachedHolidayData_never_fails.2.2.2.2 "BEGIN:VCALENDAR"
    (fun s => s) (fun _ => .error "bad json") "bad json" rfl

/-! ### String replacement and the template renderer (C6) -/

/-- JavaScript `String.prototype.replace` with a global literal pattern:
leftmost match, replacement not rescanned, scan resumes after the match.
Fuel-indexed (each step consumes at least one character, so fuel
`s.length` is exact). -/
def replaceAllGo (p r : List Char) : Nat → List Char → List Char
  | _, [] => []
  | 0, c :: cs => c :: cs
  | fuel + 1, c :: cs =>
    if p ≠ [] ∧ p.isPrefixOf (c :: cs) then
      r ++ replaceAllGo p r fuel (List.drop p.length (c :: cs))
    else c :: replaceAllGo p r fuel cs

/-- Global literal replacement over a character list. -/
def replaceAll (p r s : List Char) : List Char :=
  replaceAllGo p r s.length s

/-- The template token written as `\x7b\x7bname\x7d\x7d`. -/
def tokenStr (name : List Char) : List Char :=
  '\x7b' :: '\x7b' :: (name ++ ['\x7d', '\x7d'])

/-- The script-property settings object, restricted to the fields read
by `processEmailTemplates`; a missing property is `none` (the source
falls back to the empty string via `|| ''`). -/
structure Settings where
  recipient : Option (List Char)
  senderName : Option (List Char)
  subjectNormal : Option (List Char)
  bodyNormal : Option (List Char)
  subjectDecember : Option (List Char)
  bodyDecember : Option (List Char)

/-- The function `processEmailTemplates(settings, year, month)` (lines
242-277) on the explicitly-given (year, month) path, with the holiday
cache record passed explicitly.  For 1 ≤ month ≤ 12 the source's
`new Date(year, month - 1, 1)` round-trips to (year, month), so
`currentYear = year` and `currentMonth = month`.  Replacement order
matches the source: nextRocYear and deadlineDate in the December
branch, deadlineDate in the normal branch, then rocYear and
currentMonth in both. -/
def processEmailTemplates (settings : Settings) (year month : Nat)
    (holidayData : HolidayData) : List Char × List Char :=
  let rocYear := year - 1911
  if month = 12 then
    let subject0 := settings.subjectDecember.getD []
    let body0 := settings.bodyDecember.getD []
    let nextRocYear := rocYear + 1
    let deadlineStr :=
      (calculateDeadline year 12 holidayData.holidays
        holidayData.workdays).data
    let subject1 :=
      replaceAll (tokenStr "nextRocYear".data) (natStr nextRocYear) subject0
    let body1 :=
      replaceAll (tokenStr "nextRocYear".data) (natStr nextRocYear) body0
    let subject2 := replaceAll (tokenStr "deadlineDate".data) deadlineStr
      subject1
    let body2 := replaceAll (tokenStr "deadlineDate".data) deadlineStr body1
    let subject3 := replaceAll (tokenStr "currentMonth".data) (natStr month)
      (replaceAll (tokenStr "rocYear".data) (natStr rocYear) subject2)
    let body3 := replaceAll (tokenStr "currentMonth".data) (natStr month)
      (replaceAll (tokenStr "rocYear".data) (natStr rocYear) body2)
    (subject3, body3)
  else
    let subject0 := settings.subjectNormal.getD []
    let body0 := settings.bodyNormal.getD []
    let deadlineStr :=
      (calculateDeadline year month holidayData.holidays
        holidayData.workdays).data
    let subject2 := replaceAll (tokenStr "deadlineDate".data) deadlineStr
      subject0
    let body2 := replaceAll (tokenStr "deadlineDate".data) deadlineStr body0
    let subject3 := replaceAll (tokenStr "currentMonth".data) (natStr month)
      (replaceAll (tokenStr "rocYear".data) (natStr rocYear) subject2)
    let body3 := replaceAll (tokenStr "currentMonth".data) (natStr month)
      (replaceAll (tokenStr "rocYear".data) (natStr rocYear) body2)
    (subject3, body3)

example :
    processEmailTemplates
      ⟨none, none, some "民國\x7b\x7brocYear\x7d\x7d年\x7b\x7bcurrentMonth\x7d\x7d月".data,
       some "截止:\x7b\x7bdeadlineDate\x7d\x7d".data, none, none⟩
      2024 7 ⟨[], []⟩ =
    ("民國113年7月".data, "截止:113年8月5日".data) := by decide
example :
    processEmailTemplates
      ⟨none, none, none, none,
       some "\x7b\x7brocYear\x7d\x7d/\x7b\x7bnextRocYear\x7d\x7d".data,
       some "\x7b\x7bunknown\x7d\x7d月\x7b\x7bcurrentMonth\x7d\x7d".data⟩
      2024 12 ⟨[], []⟩ =
    ("113/114".data, "\x7b\x7bunknown\x7d\x7d月12".data) := by decide

/-! ### Structural template lemmas (C6) -/

/-- A template split into literal segments and `\x7b\x7bname\x7d\x7d`
tokens. -/
inductive TItem where
  | plain (s : List Char)
  | tok (name : List Char)
deriving DecidableEq, Repr

/-- Character string of one template item. -/
def assembleItem : TItem → List Char
  | .plain s => s
  | .tok n => tokenStr n

/-- Concatenation of a template item list. -/
def assemble : List TItem → List Char
  | [] => []
  | it :: rest => assembleItem it ++ assemble rest

/-- Well-formed item: literal segments contain no opening brace, token
names are nonempty and brace-free. -/
def ItemWF : TItem → Prop
  | .plain s => '\x7b' ∉ s
  | .tok n => n ≠ [] ∧ '\x7b' ∉ n ∧ '\x7d' ∉ n

instance : DecidablePred ItemWF := fun it => by
  cases it <;> (unfold ItemWF; infer_instance)

/-- Token-level substitution: replace the token `name` by the literal
value `val`, leave everything else unchanged. -/
def substTok (name val : List Char) : TItem → TItem
  | .plain s => .plain s
  | .tok n => if n = name then .plain val else .tok n

theorem replaceAllGo_nil (p r : List Char) (fuel : Nat) :
    replaceAllGo p r fuel [] = [] := by
  cases fuel <;> rfl

theorem isPrefixOf_append_self (p t : List Char) :
    p.isPrefixOf (p ++ t) = true := by
  induction p with
  | nil => simp [List.isPrefixOf]
  | cons a as ih => simp [List.isPrefixOf, ih]

theorem replaceAllGo_skip_seg (p r : List Char) :
    ∀ (seg rest : List Char) (fuel : Nat), (seg ++ rest).length ≤ fuel →
      (∀ u v, seg = u ++ v → v ≠ [] → p.isPrefixOf (v ++ rest) = false) →
      replaceAllGo p r fuel (seg ++ rest) =
        seg ++ replaceAllGo p r (fuel - seg.length) rest := by
  intro seg
  induction seg with
  | nil =>
    intro rest fuel h1 h2
    simp
  | cons c seg' ih =>
    intro rest fuel h1 h2
    obtain ⟨f, rfl⟩ : ∃ f, fuel = f + 1 := ⟨fuel - 1, by simp at h1; omega⟩
    have hpre : p.isPrefixOf (c :: (seg' ++ rest)) = false := by
      simpa using h2 [] (c :: seg') rfl (by simp)
    rw [show replaceAllGo p r (f + 1) ((c :: seg') ++ rest) =
      (if p ≠ [] ∧ p.isPrefixOf (c :: (seg' ++ rest)) then
        r ++ replaceAllGo p r f (List.drop p.length (c :: (seg' ++ rest)))
      else c :: replaceAllGo p r f (seg' ++ rest)) from rfl]
    rw [if_neg (by simp [hpre])]
    have hf : (f + 1) - (c :: seg').length = f - seg'.length := by
      simp
    rw [hf]
    rw [ih rest f (by simp at h1 ⊢; omega)
      (fun u v huv hv => h2 (c :: u) v (by rw [huv]; rfl) hv)]
    simp

theorem replaceAllGo_hit (p r t : List Char) (hp : p ≠ []) (f : Nat) :
    replaceAllGo p r (f + 1) (p ++ t) = r ++ replaceAllGo p r f t := by
  obtain ⟨a, as, rfl⟩ : ∃ a as, p = a :: as := by
    cases p with
    | nil => exact absurd rfl hp
    | cons a as => exact ⟨a, as, rfl⟩
  have hd : List.drop (a :: as).length (a :: (as ++ t)) = t := by
    rw [show a :: (as ++ t) = (a :: as) ++ t from rfl, List.drop_left]
  rw [show replaceAllGo (a :: as) r (f + 1) ((a :: as) ++ t) =
    (if (a :: as) ≠ [] ∧ (a :: as).isPrefixOf (a :: (as ++ t)) then
      r ++ replaceAllGo (a :: as) r f
        (List.drop (a :: as).length (a :: (as ++ t)))
    else a :: replaceAllGo (a :: as) r f (as ++ t)) from rfl]
  rw [if_pos ⟨by simp, isPrefixOf_append_self (a :: as) t⟩, hd]

theorem token_names_no_match :
    ∀ (x y : List Char), '\x7d' ∉ x → x ≠ y → '\x7d' ∉ y → ∀ r : List Char,
      (x ++ ['\x7d', '\x7d']).isPrefixOf (y ++ '\x7d' :: '\x7d' :: r) =
        false := by
  intro x
  induction x with
  | nil =>
    intro y hx hne hy r
    cases y with
    | nil => exact absurd rfl hne
    | cons b ys =>
      have hb : ('\x7d' : Char) ≠ b := fun h => hy (h ▸ List.mem_cons_self b ys)
      simp [List.isPrefixOf, hb]
  | cons a xs ih =>
    intro y hx hne hy r
    have ha : a ≠ '\x7d' := fun h => hx (h ▸ List.mem_cons_self a xs)
    cases y with
    | nil =>
      simp [List.isPrefixOf, ha]
    | cons b ys =>
      by_cases hab : a = b
      · subst hab
        have hxs : '\x7d' ∉ xs := fun h => hx (List.mem_cons_of_mem _ h)
        have hys : '\x7d' ∉ ys := fun h => hy (List.mem_cons_of_mem _ h)
        have hne' : xs ≠ ys := fun h => hne (by rw [h])
        simpa [List.isPrefixOf] using ih ys hxs hne' hys r
      · simp [List.isPrefixOf, hab]

theorem no_open_brace_no_match (name s t : List Char) (hs : '\x7b' ∉ s) :
    ∀ u v, s = u ++ v → v ≠ [] →
      (tokenStr name).isPrefixOf (v ++ t) = false := by
  intro u v huv hv
  obtain ⟨v0, v', rfl⟩ : ∃ c cs, v = c :: cs := by
    cases v with
    | nil => exact absurd rfl hv
    | cons c cs => exact ⟨c, cs, rfl⟩
  have hmem : v0 ∈ s := by
    rw [huv]
    exact List.mem_append.mpr (Or.inr (List.mem_cons_self _ _))
  have hvne : ('\x7b' : Char) ≠ v0 := fun h => hs (h ▸ hmem)
  simp [tokenStr, List.isPrefixOf, hvne]

theorem tokenStr_ne_no_match (name n : List Char)
    (hn0 : n ≠ []) (hnb : '\x7b' ∉ n) (hnc : '\x7d' ∉ n)
    (hmc : '\x7d' ∉ name) (hne : n ≠ name) (rest : List Char) :
    ∀ u v, tokenStr n = u ++ v → v ≠ [] →
      (tokenStr name).isPrefixOf (v ++ rest) = false := by
  intro u v huv hv
  rcases u with _ | ⟨u0, u'⟩
  · -- the whole token: distinct names never match
    simp at huv
    subst huv
    have hh := token_names_no_match name n hmc (fun h => hne h.symm) hnc rest
    simpa [tokenStr, List.isPrefixOf, List.append_assoc] using hh
  · rw [show tokenStr n = '\x7b' :: ('\x7b' :: (n ++ ['\x7d', '\x7d']))
      from rfl, List.cons_append] at huv
    obtain ⟨rfl, huv2⟩ : u0 = '\x7b' ∧ '\x7b' :: (n ++ ['\x7d', '\x7d']) =
        u' ++ v := by
      have := List.cons.injEq '\x7b' ('\x7b' :: (n ++ ['\x7d', '\x7d']))
        u0 (u' ++ v) ▸ huv
      exact ⟨this.1.symm, this.2⟩
    rcases u' with _ | ⟨u1, u''⟩
    · -- v is the token minus its first brace
      simp at huv2
      subst huv2
      obtain ⟨n0, ns, rfl⟩ : ∃ c cs, n = c :: cs := by
        cases n with
        | nil => exact absurd rfl hn0
        | cons c cs => exact ⟨c, cs, rfl⟩
      have hn0b : ('\x7b' : Char) ≠ n0 := by
        intro h
        exact hnb (h ▸ List.mem_cons_self n0 ns)
      simp [tokenStr, List.isPrefixOf, hn0b]
    · rw [List.cons_append] at huv2
      obtain ⟨rfl, huv3⟩ : u1 = '\x7b' ∧ n ++ ['\x7d', '\x7d'] = u'' ++ v := by
        have := List.cons.injEq '\x7b' (n ++ ['\x7d', '\x7d'])
          u1 (u'' ++ v) ▸ huv2
        exact ⟨this.1.symm, this.2⟩
      obtain ⟨v0, v', rfl⟩ : ∃ c cs, v = c :: cs := by
        cases v with
        | nil => exact absurd rfl hv
        | cons c cs => exact ⟨c, cs, rfl⟩
      have hmem : v0 ∈ n ++ ['\x7d', '\x7d'] := by
        rw [huv3]
        exact List.mem_append.mpr (Or.inr (List.mem_cons_self _ _))
      have hv0 : ('\x7b' : Char) ≠ v0 := by
        intro h
        rcases List.mem_append.mp hmem with hm | hm
        · exact hnb (h ▸ hm)
        · simp at hm
          subst hm
          exact absurd h (by decide)
      simp [tokenStr, List.isPrefixOf, hv0]

theorem replaceAllGo_assemble (name val : List Char)
    (h0 : name ≠ []) (hb : '\x7b' ∉ name) (hc : '\x7d' ∉ name) :
    ∀ (items : List TItem), (∀ it ∈ items, ItemWF it) →
      ∀ fuel, (assemble items).length ≤ fuel →
        replaceAllGo (tokenStr name) val fuel (assemble items) =
          assemble (items.map (substTok name val)) := by
  intro items
  induction items with
  | nil =>
    intro _ fuel _
    simp [assemble, replaceAllGo_nil]
  | cons it rest ih =>
    intro hwf fuel hfuel
    have hwf_it : ItemWF it := hwf it (List.mem_cons_self _ _)
    have hwf_rest : ∀ i ∈ rest, ItemWF i := fun i hi =>
      hwf i (List.mem_cons_of_mem _ hi)
    cases it with
    | plain s =>
      have hs : '\x7b' ∉ s := hwf_it
      have hlen : (s ++ assemble rest).length ≤ fuel := by
        simpa [assemble, assembleItem] using hfuel
      have hstep := replaceAllGo_skip_seg (tokenStr name) val s
        (assemble rest) fuel hlen
        (no_open_brace_no_match name s (assemble rest) hs)
      have hrhs : assemble (List.map (substTok name val)
          (TItem.plain s :: rest)) =
          s ++ assemble (rest.map (substTok name val)) := by
        simp [substTok, assemble, assembleItem]
      show replaceAllGo (tokenStr name) val fuel (s ++ assemble rest) = _
      rw [hstep, hrhs]
      congr 1
      exact ih hwf_rest (fuel - s.length) (by
        simp [List.length_append] at hlen
        omega)
    | tok n =>
      obtain ⟨hn0, hnb, hnc⟩ := hwf_it
      by_cases hnn : n = name
      · subst hnn
        obtain ⟨f, rfl⟩ : ∃ f, fuel = f + 1 := by
          refine ⟨fuel - 1, ?_⟩
          simp [assemble, assembleItem, tokenStr] at hfuel
          omega
        have hrhs : assemble (List.map (substTok n val)
            (TItem.tok n :: rest)) =
            val ++ assemble (rest.map (substTok n val)) := by
          simp [substTok, assemble, assembleItem]
        show replaceAllGo (tokenStr n) val (f + 1)
          (tokenStr n ++ assemble rest) = _
        rw [replaceAllGo_hit (tokenStr n) val (assemble rest)
          (by simp [tokenStr]) f, hrhs]
        congr 1
        exact ih hwf_rest f (by
          simp [assemble, assembleItem, tokenStr] at hfuel
          omega)
      · have hlen : (tokenStr n ++ assemble rest).length ≤ fuel := by
          simpa [assemble, assembleItem] using hfuel
        have hstep := replaceAllGo_skip_seg (tokenStr name) val (tokenStr n)
          (assemble rest) fuel hlen
          (tokenStr_ne_no_match name n hn0 hnb hnc hc hnn (assemble rest))
        have hrhs : assemble (List.map (substTok name val)
            (TItem.tok n :: rest)) =
            tokenStr n ++ assemble (rest.map (substTok name val)) := by
          simp [substTok, assemble, assembleItem, hnn]
        show replaceAllGo (tokenStr name) val fuel
          (tokenStr n ++ assemble rest) = _
        rw [hstep, hrhs]
        congr 1
        exact ih hwf_rest (fuel - (tokenStr n).length) (by
          simp [List.length_append] at hlen
          omega)

theorem replaceAll_assemble (name val : List Char)
    (h0 : name ≠ []) (hb : '\x7b' ∉ name) (hc : '\x7d' ∉ name)
    (items : List TItem) (hwf : ∀ it ∈ items, ItemWF it) :
    replaceAll (tokenStr name) val (assemble items) =
      assemble (items.map (substTok name val)) :=
  replaceAllGo_assemble name val h0 hb hc items hwf _ (le_refl _)

theorem substTok_wf (name val : List Char) (hval : '\x7b' ∉ val)
    (items : List TItem) (hwf : ∀ it ∈ items, ItemWF it) :
    ∀ it ∈ items.map (substTok name val), ItemWF it := by
  intro it hit
  rw [List.mem_map] at hit
  obtain ⟨it0, hit0, rfl⟩ := hit
  have hw := hwf it0 hit0
  cases it0 with
  | plain s => exact hw
  | tok n =>
    by_cases hnn : n = name
    · rw [show substTok name val (TItem.tok n) = TItem.plain val by
        simp [substTok, hnn]]
      exact hval
    · rw [show substTok name val (TItem.tok n) = TItem.tok n by
        simp [substTok, hnn]]
      exact hw

theorem natStrGo_digits :
    ∀ fuel n c, c ∈ natStrGo fuel n → c.isDigit = true := by
  intro fuel
  induction fuel with
  | zero =>
    intro n c h
    simp [natStrGo] at h
  | succ f ih =>
    intro n c h
    by_cases hn : n < 10
    · rw [show natStrGo (f + 1) n = [Nat.digitChar n] by
        simp [natStrGo, hn]] at h
      simp at h
      subst h
      interval_cases n <;> decide
    · rw [show natStrGo (f + 1) n =
        natStrGo f (n / 10) ++ [Nat.digitChar (n % 10)] by
        simp [natStrGo, hn]] at h
      rcases List.mem_append.mp h with h | h
      · exact ih (n / 10) c h
      · simp at h
        subst h
        have h10 : n % 10 < 10 := Nat.mod_lt _ (by norm_num)
        generalize hr : n % 10 = q at h10 ⊢
        interval_cases q <;> decide

theorem natStr_no_brace (n : Nat) : '\x7b' ∉ natStr n := by
  intro h
  have := natStrGo_digits (n + 1) n _ h
  exact absurd this (by decide)

theorem calculateDeadline_is_format (year month : Nat)
    (holidays workdays : List Nat) :
    ∃ x, calculateDeadline year month holidays workdays = formatROC x := by
  unfold calculateDeadline
  cases deadlineDate year month holidays workdays <;> exact ⟨_, rfl⟩

theorem formatROC_no_brace (x : CalDate) : '\x7b' ∉ (formatROC x).data := by
  intro h
  simp [formatROC] at h
  rcases h with h | h | h
  exacts [natStr_no_brace _ h, natStr_no_brace _ h, natStr_no_brace _ h]

theorem calculateDeadline_no_brace (year month : Nat)
    (holidays workdays : List Nat) :
    '\x7b' ∉ (calculateDeadline year month holidays workdays).data := by
  obtain ⟨x, hx⟩ := calculateDeadline_is_format year month holidays workdays
  rw [hx]
  exact formatROC_no_brace x

/-- C6: `processEmailTemplates` selects the December template pair
exactly when month = 12 (otherwise the normal pair) and performs literal
all-occurrence token substitution on subject and body: every
`\x7b\x7brocYear\x7d\x7d` becomes year-1911, every
`\x7b\x7bcurrentMonth\x7d\x7d` the unpadded month, every
`\x7b\x7bdeadlineDate\x7d\x7d` the `calculateDeadline` string, and (for
month = 12 only) every `\x7b\x7bnextRocYear\x7d\x7d` becomes
rocYear + 1; plain text and unrecognized tokens are left verbatim. -/
theorem processEmailTemplates_substitution
    (sN bN sD bD : List TItem) (recipient senderName : Option (List Char))
    (year month : Nat) (hd : HolidayData)
    (hsN : ∀ it ∈ sN, ItemWF it) (hbN : ∀ it ∈ bN, ItemWF it)
    (hsD : ∀ it ∈ sD, ItemWF it) (hbD : ∀ it ∈ bD, ItemWF it)
    (hm1 : 1 ≤ month) (hm2 : month ≤ 12) :
    processEmailTemplates
      ⟨recipient, senderName, some (assemble sN), some (assemble bN),
       some (assemble sD), some (assemble bD)⟩ year month hd =
    (if month = 12 then
      (assemble ((((sD.map
          (substTok "nextRocYear".data (natStr (year - 1911 + 1)))).map
          (substTok "deadlineDate".data
            (calculateDeadline year 12 hd.holidays hd.workdays).data)).map
          (substTok "rocYear".data (natStr (year - 1911)))).map
          (substTok "currentMonth".data (natStr month))),
       assemble ((((bD.map
          (substTok "nextRocYear".data (natStr (year - 1911 + 1)))).map
          (substTok "deadlineDate".data
            (calculateDeadline year 12 hd.holidays hd.workdays).data)).map
          (substTok "rocYear".data (natStr (year - 1911)))).map
          (substTok "currentMonth".data (natStr month))))
    else
      (assemble (((sN.map
          (substTok "deadlineDate".data
            (calculateDeadline year month hd.holidays hd.workdays).data)).map
          (substTok "rocYear".data (natStr (year - 1911)))).map
          (substTok "currentMonth".data (natStr month))),
       assemble (((bN.map
          (substTok "deadlineDate".data
            (calculateDeadline year month hd.holidays hd.workdays).data)).map
          (substTok "rocYear".data (natStr (year - 1911)))).map
          (substTok "currentMonth".data (natStr month))))) := by
  have hnext : '\x7b' ∉ natStr (year - 1911 + 1) := natStr_no_brace _
  have hroc : '\x7b' ∉ natStr (year - 1911) := natStr_no_brace _
  by_cases h12 : month = 12
  · have hdl : '\x7b' ∉
        (calculateDeadline year 12 hd.holidays hd.workdays).data :=
      calculateDeadline_no_brace year 12 hd.holidays hd.workdays
    have key : ∀ (items : List TItem), (∀ it ∈ items, ItemWF it) →
        replaceAll (tokenStr "currentMonth".data) (natStr month)
          (replaceAll (tokenStr "rocYear".data) (natStr (year - 1911))
            (replaceAll (tokenStr "deadlineDate".data)
              (calculateDeadline year 12 hd.holidays hd.workdays).data
              (replaceAll (tokenStr "nextRocYear".data)
                (natStr (year - 1911 + 1)) (assemble items)))) =
        assemble ((((items.map
          (substTok "nextRocYear".data (natStr (year - 1911 + 1)))).map
          (substTok "deadlineDate".data
            (calculateDeadline year 12 hd.holidays hd.workdays).data)).map
          (substTok "rocYear".data (natStr (year - 1911)))).map
          (substTok "currentMonth".data (natStr month))) := by
      intro items hw
      have w1 := substTok_wf "nextRocYear".data _ hnext items hw
      have w2 := substTok_wf "deadlineDate".data _ hdl _ w1
      have w3 := substTok_wf "rocYear".data _ hroc _ w2
      rw [replaceAll_assemble "nextRocYear".data _ (by decide) (by decide)
        (by decide) items hw]
      rw [replaceAll_assemble "deadlineDate".data _ (by decide) (by decide)
        (by decide) _ w1]
      rw [replaceAll_assemble "rocYear".data _ (by decide) (by decide)
        (by decide) _ w2]
      rw [replaceAll_assemble "currentMonth".data _ (by decide) (by decide)
        (by decide) _ w3]
    simp only [processEmailTemplates, Option.getD_some, if_pos h12]
    rw [key sD hsD, key bD hbD]
  · have hdl : '\x7b' ∉
        (calculateDeadline year month hd.holidays hd.workdays).data :=
      calculateDeadline_no_brace year month hd.holidays hd.workdays
    have key : ∀ (items : List TItem), (∀ it ∈ items, ItemWF it) →
        replaceAll (tokenStr "currentMonth".data) (natStr month)
          (replaceAll (tokenStr "rocYear".data) (natStr (year - 1911))
            (replaceAll (tokenStr "deadlineDate".data)
              (calculateDeadline year month hd.holidays hd.workdays).data
              (assemble items))) =
        assemble (((items.map
          (substTok "deadlineDate".data
            (calculateDeadline year month hd.holidays hd.workdays).data)).map
          (substTok "rocYear".data (natStr (year - 1911)))).map
          (substTok "currentMonth".data (natStr month))) := by
      intro items hw
      have w1 := substTok_wf "deadlineDate".data _ hdl items hw
      have w2 := substTok_wf "rocYear".data _ hroc _ w1
      rw [replaceAll_assemble "deadlineDate".data _ (by decide) (by decide)
        (by decide) items hw]
      rw [replaceAll_assemble "rocYear".data _ (by decide) (by decide)
        (by decide) _ w1]
      rw [replaceAll_assemble "currentMonth".data _ (by decide) (by decide)
        (by decide) _ w2]
    simp only [processEmailTemplates, Option.getD_some, if_neg h12]
    rw [key sN hsN, key bN hbN]

theorem processEmailTemplates_substitution_w :
    processEmailTemplates
      ⟨none, none,
       some (assemble [TItem.plain "A".data, TItem.tok "rocYear".data]),
       some (assemble [TItem.tok "deadlineDate".data]),
       some (assemble [TItem.tok "nextRocYear".data]),
       some (assemble [TItem.tok "unknown".data])⟩ 2024 8 ⟨[], []⟩ =
    (if (8 : Nat) = 12 then
      (assemble (((([TItem.tok "nextRocYear".data].map
          (substTok "nextRocYear".data (natStr (2024 - 1911 + 1)))).map
          (substTok "deadlineDate".data
            (calculateDeadline 2024 12 ([] : List Nat) []).data)).map
          (substTok "rocYear".data (natStr (2024 - 1911)))).map
          (substTok "currentMonth".data (natStr 8))),
       assemble (((([TItem.tok "unknown".data].map
          (substTok "nextRocYear".data (natStr (2024 - 1911 + 1)))).map
          (substTok "deadlineDate".data
            (calculateDeadline 2024 12 ([] : List Nat) []).data)).map
          (substTok "rocYear".data (natStr (2024 - 1911)))).map
          (substTok "currentMonth".data (natStr 8))))
    else
      (assemble ((([TItem.plain "A".data, TItem.tok "rocYear".data].map
          (substTok "deadlineDate".data
            (calculateDeadline 2024 8 ([] : List Nat) []).data)).map
          (substTok "rocYear".data (natStr (2024 - 1911)))).map
          (substTok "currentMonth".data (natStr 8))),
       assemble ((([TItem.tok "deadlineDate".data].map
          (substTok "deadlineDate".data
            (calculateDeadline 2024 8 ([] : List Nat) []).data)).map
          (substTok "rocYear".data (natStr (2024 - 1911)))).map
          (substTok "currentMonth".data (natStr 8))))) :=
  processEmailTemplates_substitution
    [TItem.plain "A".data, TItem.tok "rocYear".data]
    [TItem.tok "deadlineDate".data]
    [TItem.tok "nextRocYear".data]
    [TItem.tok "unknown".data]
    none none 2024 8 ⟨[], []⟩
    (by decide) (by decide) (by decide) (by decide) (by decide) (by decide)

/-! ### Markup converter `markdownToHtml` (lines 334-362) -/

/-- JavaScript regexp `.` (without the s flag): any character except the
four line terminators. -/
def dotOk (c : Char) : Bool :=
  c != '\n' && c != '\r' && c != '\u2028' && c != '\u2029'

/-- JavaScript regexp `\s` (common whitespace; exotic Unicode spaces of
the full class do not occur in the texts handled here). -/
def isJsSpace (c : Char) : Bool :=
  c == ' ' || c == '\t' || c == '\n' || c == '\r' || c == '\x0b' ||
    c == '\x0c' || c == '\u00a0' || c == '\ufeff' || c == '\u2028' ||
    c == '\u2029'

/-- Lazy scan of `PAT+?CLOSING`: shortest nonempty run of characters
satisfying `ok` followed by `closing`; returns the run and the
remainder after `closing`. -/
def findLazyGo (ok : Char → Bool) (closing : List Char) :
    Nat → List Char → Option (List Char × List Char)
  | _, [] => none
  | 0, _ :: _ => none
  | fuel + 1, c :: rest =>
    if ok c then
      if closing.isPrefixOf rest then
        some ([c], rest.drop closing.length)
      else
        match findLazyGo ok closing fuel rest with
        | some (t, r) => some (c :: t, r)
        | none => none
    else none

/-- Lazy scan wrapper with exact fuel. -/
def findLazy (ok : Char → Bool) (closing s : List Char) :
    Option (List Char × List Char) :=
  findLazyGo ok closing s.length s

/-- Global replacement of `MARKER(.+?)MARKER` by `pre$1post` (the two
colored custom tags). -/
def pairedGo (marker pre post : List Char) : Nat → List Char → List Char
  | _, [] => []
  | 0, c :: cs => c :: cs
  | fuel + 1, c :: cs =>
    if marker.isPrefixOf (c :: cs) then
      match findLazy dotOk marker ((c :: cs).drop marker.length) with
      | some (t, r) => pre ++ t ++ post ++ pairedGo marker pre post fuel r
      | none => c :: pairedGo marker pre post fuel cs
    else c :: pairedGo marker pre post fuel cs

/-- Paired-marker replacement with exact fuel. -/
def pairedReplace (marker pre post s : List Char) : List Char :=
  pairedGo marker pre post s.length s

/-- Global replacement of the generic bold rule
`\*\*([^*]+)\*\*` by strong markup. -/
def boldGo : Nat → List Char → List Char
  | _, [] => []
  | 0, c :: cs => c :: cs
  | fuel + 1, c :: cs =>
    if "**".data.isPrefixOf (c :: cs) then
      let rest := (c :: cs).drop 2
      let run := rest.takeWhile (fun x => x != '*')
      let after := rest.drop run.length
      if run ≠ [] ∧ "**".data.isPrefixOf after then
        "<strong>".data ++ run ++ "</strong>".data ++ boldGo fuel
          (after.drop 2)
      else c :: boldGo fuel cs
    else c :: boldGo fuel cs

/-- Generic bold replacement with exact fuel. -/
def boldReplace (s : List Char) : List Char := boldGo s.length s

/-- One attempt of `\x5B([^\\]+?)\x5D\(([^)]+?)\)` after an opening
bracket: lazily extend the label across consecutive closing-bracket
positions (regexp backtracking) until a url part closes. -/
def tryLinkGo : Nat → List Char → Option (List Char × List Char × List Char)
  | 0, _ => none
  | fuel + 1, s =>
    match findLazy (fun c => c != '\\') "](".data s with
    | none => none
    | some (lab, rest1) =>
      match findLazy (fun c => c != ')') [')'] rest1 with
      | some (url, rest2) => some (lab, url, rest2)
      | none =>
        match tryLinkGo fuel rest1 with
        | some (lab2, url, rest2) =>
          some (lab ++ "](".data ++ lab2, url, rest2)
        | none => none

/-- Global replacement of markdown links by anchors. -/
def linkGo : Nat → List Char → List Char
  | _, [] => []
  | 0, c :: cs => c :: cs
  | fuel + 1, c :: cs =>
    if c = '[' then
      match tryLinkGo cs.length cs with
      | some (lab, url, rest2) =>
        "<a href=\"".data ++ url ++ "\" target=\"_blank\">".data ++ lab ++
          "</a>".data ++ linkGo fuel rest2
      | none => c :: linkGo fuel cs
    else c :: linkGo fuel cs

/-- Link replacement with exact fuel. -/
def linkReplace (s : List Char) : List Char := linkGo s.length s

/-- The multiline rule `^\s*[l•-]\s+(.*)` applied to one line. -/
def lineLi (line : List Char) : List Char :=
  match line.dropWhile isJsSpace with
  | c :: rest2 =>
    if c = 'l' ∨ c = '•' ∨ c = '-' then
      if rest2.takeWhile isJsSpace ≠ [] then
        "<li>".data ++ rest2.dropWhile isJsSpace ++ "</li>".data
      else line
    else line
  | [] => line

/-- Apply `lineLi` to every line terminator-separated line. -/
def listStageGo : Nat → List Char → List Char
  | _, [] => []
  | 0, c :: cs => c :: cs
  | fuel + 1, s =>
    lineLi (s.takeWhile dotOk) ++
      match s.dropWhile dotOk with
      | [] => []
      | c :: r => c :: listStageGo fuel r

/-- List-item stage with exact fuel. -/
def listStage (s : List Char) : List Char := listStageGo s.length s

/-- Greedy `.*<\/li>` within a line: split before the last closing tag. -/
def findLastClose : List Char → Option (List Char × List Char)
  | [] => none
  | c :: rest =>
    match findLastClose rest with
    | some (b, a) => some (c :: b, a)
    | none =>
      if "</li>".data.isPrefixOf (c :: rest) then
        some ([], (c :: rest).drop 5)
      else none

/-- One unit of `(<li>.*<\/li>\s*)+`: an item tag, the greedy dot-run up
to the last `</li>` of the line, then greedy whitespace. -/
def ulUnit (s : List Char) : Option (List Char × List Char) :=
  if "<li>".data.isPrefixOf s then
    let body := s.drop 4
    let line := body.takeWhile dotOk
    let after := body.drop line.length
    match findLastClose line with
    | some (x, lineRest) =>
      let rem := lineRest ++ after
      let ws := rem.takeWhile isJsSpace
      some ("<li>".data ++ x ++ "</li>".data ++ ws, rem.drop ws.length)
    | none => none
  else none

/-- One or more consecutive units. -/
def ulRunGo : Nat → List Char → Option (List Char × List Char)
  | 0, _ => none
  | fuel + 1, s =>
    match ulUnit s with
    | none => none
    | some (m, r) =>
      match ulRunGo fuel r with
      | some (m2, r2) => some (m ++ m2, r2)
      | none => some (m, r)

/-- Wrap every maximal run of list items in a single list container. -/
def ulGo : Nat → List Char → List Char
  | _, [] => []
  | 0, c :: cs => c :: cs
  | fuel + 1, c :: cs =>
    match ulRunGo (c :: cs).length (c :: cs) with
    | some (m, r) => "<ul>".data ++ m ++ "</ul>".data ++ ulGo fuel r
    | none => c :: ulGo fuel cs

/-- List-wrapping stage with exact fuel. -/
def ulWrap (s : List Char) : List Char := ulGo s.length s

/-- The newline rule `\r\n|\n|\r` → `<br>\n` (alternation order of the
source preserved). -/
def newlineGo : Nat → List Char → List Char
  | _, [] => []
  | 0, c :: cs => c :: cs
  | fuel + 1, c :: cs =>
    if c = '\r' ∧ cs.head? = some '\n' then
      "<br>\n".data ++ newlineGo fuel (cs.drop 1)
    else if c = '\n' ∨ c = '\r' then
      "<br>\n".data ++ newlineGo fuel cs
    else c :: newlineGo fuel cs

/-- Newline stage with exact fuel. -/
def newlineStage (s : List Char) : List Char := newlineGo s.length s

/-- Opening marker of the red custom tag. -/
def redMarker : List Char := "**紅字**".data

/-- Opening marker of the yellow custom tag. -/
def yellowMarker : List Char := "**黃底**".data

/-- Replacement head of the red custom tag. -/
def redPre : List Char :=
  "<span style=\"background-color:#ffff00; color:#cc0000; font-weight:bold;\">".data

/-- Replacement tail of the red custom tag. -/
def redPost : List Char := "</span>".data

/-- Replacement head of the yellow custom tag. -/
def yellowPre : List Char :=
  "<span style=\"background-color:#ffff00; color:#000000; font-weight:bold;\">".data

/-- Replacement tail of the yellow custom tag. -/
def yellowPost : List Char := "</span>".data

/-- The converter `markdownToHtml(text)` (lines 334-362): escape, the
two colored paired tags, generic bold, links, list items, list
wrapping, newlines, cleanup, in the order of the source. -/
def markdownToHtml (text : List Char) : List Char :=
  if text = [] then []
  else
    let h1 := replaceAll ['&'] "&amp;".data text
    let h2 := replaceAll ['<'] "&lt;".data h1
    let h3 := replaceAll ['>'] "&gt;".data h2
    let h4 := pairedReplace redMarker redPre redPost h3
    let h5 := pairedReplace yellowMarker yellowPre yellowPost h4
    let h6 := boldReplace h5
    let h7 := linkReplace h6
    let h8 := listStage h7
    let h9 := ulWrap h8
    let h10 := newlineStage h9
    let h11 := replaceAll "<br>\n<ul>".data "<ul>".data h10
    replaceAll "</ul><br>\n".data "</ul>".data h11

example : markdownToHtml [] = [] := by decide
example : markdownToHtml "Hello\nWorld".data = "Hello<br>\nWorld".data := by
  decide
example :
    markdownToHtml "Check out [Google](https://google.com)".data =
      "Check out <a href=\"https://google.com\" target=\"_blank\">Google</a>".data := by
  decide
example :
    markdownToHtml "- First item\n- Second item".data =
      "<ul><li>First item</li><br>\n<li>Second item</li></ul>".data := by
  decide
example :
    markdownToHtml "**紅字**急件**紅字**".data =
      (redPre ++ "急件".data ++ redPost) := by decide
example :
    markdownToHtml "**bold** & <x>".data =
      "<strong>bold</strong> &amp; &lt;x&gt;".data := by decide

/-- C3 (evaluation of the code at the failing input): `markdownToHtml`
only replaces existing newlines with break markup and never appends one
after the final line; on the repository's own test input it returns
"Hello<br>\nWorld", not the "Hello<br>\nWorld<br>\n" demanded by
`test_markdownToHtml_convertsNewlines` and by the specification. -/
theorem markdownToHtml_no_trailing_break :
    markdownToHtml "Hello\nWorld".data = "Hello<br>\nWorld".data ∧
    markdownToHtml "Hello\nWorld".data ≠ "Hello<br>\nWorld<br>\n".data := by
  constructor <;> decide

/-! ### Identity lemmas for the converter stages (C8) -/

/-- The pattern `p` occurs as a contiguous substring of `s`. -/
def occursIn (p s : List Char) : Prop := ∃ u v, s = u ++ p ++ v

theorem isPrefixOf_eq_true_iff (p s : List Char) :
    p.isPrefixOf s = true ↔ ∃ t, s = p ++ t := by
  induction p generalizing s with
  | nil => simp [List.isPrefixOf]
  | cons a as ih =>
    cases s with
    | nil => simp [List.isPrefixOf]
    | cons b bs =>
      rw [show (a :: as).isPrefixOf (b :: bs) = (a == b && as.isPrefixOf bs)
        from rfl]
      constructor
      · intro h
        rw [Bool.and_eq_true, beq_iff_eq] at h
        obtain ⟨t, ht⟩ := (ih bs).mp h.2
        exact ⟨t, by rw [h.1, ht]; rfl⟩
      · rintro ⟨t, ht⟩
        injection ht with h1 h2
        rw [Bool.and_eq_true, beq_iff_eq]
        exact ⟨h1.symm, (ih bs).mpr ⟨t, h2⟩⟩

theorem not_occurs_of_mem_absent {c : Char} {p s : List Char}
    (hc : c ∈ p) (hs : c ∉ s) : ¬occursIn p s := by
  rintro ⟨u, v, rfl⟩
  exact hs (List.mem_append.mpr (Or.inl (List.mem_append.mpr (Or.inr hc))))

theorem occursIn_of_isPrefixOf {p s : List Char}
    (h : p.isPrefixOf s = true) : occursIn p s := by
  obtain ⟨t, rfl⟩ := (isPrefixOf_eq_true_iff p s).mp h
  exact ⟨[], t, rfl⟩

theorem occursIn_cons {p : List Char} {c : Char} {s : List Char}
    (h : occursIn p s) : occursIn p (c :: s) := by
  obtain ⟨u, v, rfl⟩ := h
  exact ⟨c :: u, v, rfl⟩

theorem replaceAllGo_id (p r : List Char) :
    ∀ (fuel : Nat) (s : List Char), ¬occursIn p s →
      replaceAllGo p r fuel s = s := by
  intro fuel
  induction fuel with
  | zero =>
    intro s _
    cases s <;> rfl
  | succ f ih =>
    intro s hno
    cases s with
    | nil => rfl
    | cons c cs =>
      rw [show replaceAllGo p r (f + 1) (c :: cs) =
        (if p ≠ [] ∧ p.isPrefixOf (c :: cs) then
          r ++ replaceAllGo p r f (List.drop p.length (c :: cs))
        else c :: replaceAllGo p r f cs) from rfl]
      rw [if_neg (fun hcl => hno (occursIn_of_isPrefixOf hcl.2))]
      rw [ih cs (fun ho => hno (occursIn_cons ho))]

theorem replaceAll_id (p r s : List Char) (h : ¬occursIn p s) :
    replaceAll p r s = s :=
  replaceAllGo_id p r s.length s h

theorem pairedGo_nil (marker pre post : List Char) (fuel : Nat) :
    pairedGo marker pre post fuel [] = [] := by
  cases fuel <;> rfl

theorem pairedGo_id (marker pre post : List Char) :
    ∀ (fuel : Nat) (s : List Char), ¬occursIn marker s →
      pairedGo marker pre post fuel s = s := by
  intro fuel
  induction fuel with
  | zero =>
    intro s _
    cases s <;> rfl
  | succ f ih =>
    intro s hno
    cases s with
    | nil => rfl
    | cons c cs =>
      rw [show pairedGo marker pre post (f + 1) (c :: cs) =
        (if marker.isPrefixOf (c :: cs) then
          match findLazy dotOk marker ((c :: cs).drop marker.length) with
          | some (t, r) =>
            pre ++ t ++ post ++ pairedGo marker pre post f r
          | none => c :: pairedGo marker pre post f cs
        else c :: pairedGo marker pre post f cs) from rfl]
      rw [if_neg (fun hcl => hno (occursIn_of_isPrefixOf hcl))]
      rw [ih cs (fun ho => hno (occursIn_cons ho))]

theorem linkGo_id :
    ∀ (fuel : Nat) (s : List Char), '[' ∉ s → linkGo fuel s = s := by
  intro fuel
  induction fuel with
  | zero =>
    intro s _
    cases s <;> rfl
  | succ f ih =>
    intro s hno
    cases s with
    | nil => rfl
    | cons c cs =>
      have hc : ¬(c = '[') := fun h => hno (h ▸ List.mem_cons_self c cs)
      rw [show linkGo (f + 1) (c :: cs) =
        (if c = '[' then
          match tryLinkGo cs.length cs with
          | some (lab, url, rest2) =>
            "<a href=\"".data ++ url ++ "\" target=\"_blank\">".data ++
              lab ++ "</a>".data ++ linkGo f rest2
          | none => c :: linkGo f cs
        else c :: linkGo f cs) from rfl]
      rw [if_neg hc]
      rw [ih cs (fun hm => hno (List.mem_cons_of_mem c hm))]

theorem newlineGo_id :
    ∀ (fuel : Nat) (s : List Char),
      (∀ c ∈ s, c ≠ '\n' ∧ c ≠ '\r') → newlineGo fuel s = s := by
  intro fuel
  induction fuel with
  | zero =>
    intro s _
    cases s <;> rfl
  | succ f ih =>
    intro s hno
    cases s with
    | nil => rfl
    | cons c cs =>
      have hc := hno c (List.mem_cons_self c cs)
      rw [show newlineGo (f + 1) (c :: cs) =
        (if c = '\r' ∧ cs.head? = some '\n' then
          "<br>\n".data ++ newlineGo f (cs.drop 1)
        else if c = '\n' ∨ c = '\r' then
          "<br>\n".data ++ newlineGo f cs
        else c :: newlineGo f cs) from rfl]
      rw [if_neg (fun h => hc.2 h.1), if_neg (fun h => h.elim hc.1 hc.2)]
      rw [ih cs (fun x hx => hno x (List.mem_cons_of_mem c hx))]

/-- No adjacent pair `x y` anywhere in `s`. -/
def NoPair (x y : Char) (s : List Char) : Prop :=
  ∀ u w, s = u ++ x :: y :: w → False

/-- Boolean scan for `NoPair`, for deciding concrete strings. -/
def noPairB (x y : Char) : List Char → Bool
  | [] => true
  | [_] => true
  | c1 :: c2 :: rest => !(c1 == x && c2 == y) && noPairB x y (c2 :: rest)

theorem noPairB_iff (x y : Char) :
    ∀ s : List Char, noPairB x y s = true ↔ NoPair x y s := by
  intro s
  match s with
  | [] =>
    constructor
    · intro _ u w h
      exact absurd (congrArg List.length h) (by simp; omega)
    · intro _
      rfl
  | [c] =>
    constructor
    · intro _ u w h
      have := congrArg List.length h
      simp at this
      omega
    · intro _
      rfl
  | c1 :: c2 :: rest =>
    rw [show noPairB x y (c1 :: c2 :: rest) =
      (!(c1 == x && c2 == y) && noPairB x y (c2 :: rest)) from rfl]
    rw [Bool.and_eq_true, noPairB_iff x y (c2 :: rest)]
    constructor
    · intro ⟨h1, h2⟩ u w huw
      cases u with
      | nil =>
        injection huw with e1 e2
        injection e2 with e2 e3
        subst e1; subst e2
        simp at h1
      | cons u0 u' =>
        injection huw with e1 e2
        exact h2 u' w e2
    · intro h
      constructor
      · by_contra hb
        simp at hb
        exact h [] rest (by rw [hb.1, hb.2]; rfl)
      · intro u w huw
        exact h (c1 :: u) w (by rw [huw]; rfl)

theorem noPair_of_not_mem_left {x y : Char} {s : List Char} (h : x ∉ s) :
    NoPair x y s := by
  intro u w huw
  exact h (huw ▸ List.mem_append.mpr
    (Or.inr (List.mem_cons_self x (y :: w))))

theorem noPair_append {x y : Char} {a b : List Char}
    (ha : NoPair x y a) (hb : NoPair x y b)
    (hbd : ∀ a', a = a' ++ [x] → ∀ w, b = y :: w → False) :
    NoPair x y (a ++ b) := by
  induction a generalizing b with
  | nil =>
    intro u w huw
    exact hb u w (by simpa using huw)
  | cons c a' ih =>
    intro u w huw
    cases u with
    | nil =>
      simp at huw
      obtain ⟨rfl, h2⟩ := huw
      cases a' with
      | nil =>
        simp at h2
        exact hbd [] rfl w h2
      | cons d a'' =>
        rw [List.cons_append] at h2
        injection h2 with e1 e2
        exact ha [] a'' (by rw [e1]; rfl)
    | cons u0 u' =>
      rw [List.cons_append] at huw
      injection huw with e1 e2
      exact ih (fun uu ww hww => ha (c :: uu) ww (by rw [hww]; rfl))
        hb (fun aa haa ww hww => hbd (c :: aa) (by rw [haa]; rfl) ww hww)
        u' w e2

theorem noPair_tail {x y c : Char} {cs : List Char}
    (h : NoPair x y (c :: cs)) : NoPair x y cs :=
  fun u w hw => h (c :: u) w (by rw [hw]; rfl)

/-- A pattern starting with the adjacent pair `x y` cannot occur in a
string free of that pair. -/
theorem noPair_not_occurs {x y : Char} {r s : List Char}
    (h : NoPair x y s) : ¬occursIn (x :: y :: r) s := by
  rintro ⟨u, v, rfl⟩
  exact h u (r ++ v) (by simp)

/-- The generic bold rule is the identity on a string without two
adjacent asterisks: its `\x2a\x2a` opener never matches. -/
theorem boldGo_id :
    ∀ (fuel : Nat) (s : List Char), NoPair '*' '*' s → boldGo fuel s = s := by
  intro fuel
  induction fuel with
  | zero =>
    intro s _
    cases s <;> rfl
  | succ f ih =>
    intro s hno
    cases s with
    | nil => rfl
    | cons c cs =>
      have hc : ¬("**".data.isPrefixOf (c :: cs) = true) := by
        intro h
        obtain ⟨t, ht⟩ := (isPrefixOf_eq_true_iff _ _).mp h
        exact hno [] t (ht.trans rfl)
      rw [show boldGo (f + 1) (c :: cs) =
        (if "**".data.isPrefixOf (c :: cs) then
          (let rest := (c :: cs).drop 2
           let run := rest.takeWhile (fun x => x != '*')
           let after := rest.drop run.length
           if run ≠ [] ∧ "**".data.isPrefixOf after then
             "<strong>".data ++ run ++ "</strong>".data ++ boldGo f
               (after.drop 2)
           else c :: boldGo f cs)
        else c :: boldGo f cs) from rfl]
      rw [if_neg hc]
      rw [ih cs (noPair_tail hno)]

theorem ulUnit_none {s : List Char}
    (h : "<li>".data.isPrefixOf s = false) : ulUnit s = none := by
  unfold ulUnit
  rw [if_neg (by simp [h])]

theorem ulRunGo_none {s : List Char} (h : ulUnit s = none) (f : Nat) :
    ulRunGo f s = none := by
  cases f with
  | zero => rfl
  | succ f' =>
    rw [show ulRunGo (f' + 1) s =
      (match ulUnit s with
       | none => none
       | some (m, r) =>
         match ulRunGo f' r with
         | some (m2, r2) => some (m ++ m2, r2)
         | none => some (m, r)) from rfl, h]

theorem ulGo_id :
    ∀ (fuel : Nat) (s : List Char), NoPair '<' 'l' s → ulGo fuel s = s := by
  intro fuel
  induction fuel with
  | zero =>
    intro s _
    cases s <;> rfl
  | succ f ih =>
    intro s hno
    cases s with
    | nil => rfl
    | cons c cs =>
      have hpre : "<li>".data.isPrefixOf (c :: cs) = false := by
        cases hE : "<li>".data.isPrefixOf (c :: cs) with
        | false => rfl
        | true =>
          obtain ⟨t, ht⟩ := (isPrefixOf_eq_true_iff _ _).mp hE
          exact (hno [] ('i' :: '>' :: t) (by rw [ht]; rfl)).elim
      have hrun : ulRunGo (c :: cs).length (c :: cs) = none :=
        ulRunGo_none (ulUnit_none hpre) _
      rw [show ulGo (f + 1) (c :: cs) =
        (match ulRunGo (c :: cs).length (c :: cs) with
         | some (m, r) => "<ul>".data ++ m ++ "</ul>".data ++ ulGo f r
         | none => c :: ulGo f cs) from rfl, hrun]
      show c :: ulGo f cs = c :: cs
      rw [ih cs (noPair_tail hno)]

theorem takeWhile_all {p : Char → Bool} :
    ∀ s : List Char, (∀ c ∈ s, p c = true) → s.takeWhile p = s := by
  intro s
  induction s with
  | nil => intro _; rfl
  | cons c cs ih =>
    intro h
    have hc := h c (List.mem_cons_self c cs)
    simp [List.takeWhile_cons, hc]
    exact fun x hx => h x (List.mem_cons_of_mem c hx)

theorem dropWhile_all {p : Char → Bool} :
    ∀ s : List Char, (∀ c ∈ s, p c = true) → s.dropWhile p = [] := by
  intro s
  induction s with
  | nil => intro _; rfl
  | cons c cs ih =>
    intro h
    have hc := h c (List.mem_cons_self c cs)
    simp [List.dropWhile_cons, hc]
    exact fun x hx => h x (List.mem_cons_of_mem c hx)

theorem lineLi_lt (xs : List Char) : lineLi ('<' :: xs) = '<' :: xs := rfl

theorem listStage_all_dot (c : Char) (cs : List Char)
    (hdot : ∀ x ∈ c :: cs, dotOk x = true) :
    listStage (c :: cs) = lineLi (c :: cs) := by
  have htake := takeWhile_all (p := dotOk) (c :: cs) hdot
  have hdrop := dropWhile_all (p := dotOk) (c :: cs) hdot
  show listStageGo (cs.length + 1) (c :: cs) = lineLi (c :: cs)
  rw [show listStageGo (cs.length + 1) (c :: cs) =
    lineLi ((c :: cs).takeWhile dotOk) ++
      (match (c :: cs).dropWhile dotOk with
       | [] => []
       | c' :: r => c' :: listStageGo cs.length r) from rfl, htake, hdrop]
  simp

theorem findLazy_pair (c₀ : Char) (m₃ : List Char) (hc₀ : c₀ ≠ '*') :
    ∀ (T : List Char) (fuel : Nat), T ≠ [] → (∀ c ∈ T, dotOk c = true) →
      NoPair '*' '*' T →
      (T ++ '*' :: '*' :: c₀ :: m₃).length ≤ fuel →
      findLazyGo dotOk ('*' :: '*' :: c₀ :: m₃) fuel
        (T ++ '*' :: '*' :: c₀ :: m₃) = some (T, []) := by
  intro T
  induction T with
  | nil =>
    intro fuel h0 _ _ _
    exact absurd rfl h0
  | cons c T' ih =>
    intro fuel h0 hdot hnp hlen
    obtain ⟨f, rfl⟩ : ∃ f, fuel = f + 1 := ⟨fuel - 1, by simp at hlen; omega⟩
    have hokc : dotOk c = true := hdot c (List.mem_cons_self c T')
    rw [show findLazyGo dotOk ('*' :: '*' :: c₀ :: m₃) (f + 1)
        ((c :: T') ++ '*' :: '*' :: c₀ :: m₃) =
      (if dotOk c then
        if ('*' :: '*' :: c₀ :: m₃).isPrefixOf
            (T' ++ '*' :: '*' :: c₀ :: m₃) then
          some ([c], (T' ++ '*' :: '*' :: c₀ :: m₃).drop
            ('*' :: '*' :: c₀ :: m₃).length)
        else
          match findLazyGo dotOk ('*' :: '*' :: c₀ :: m₃) f
              (T' ++ '*' :: '*' :: c₀ :: m₃) with
          | some (t, r) => some (c :: t, r)
          | none => none
      else none) from rfl]
    rw [if_pos hokc]
    cases T' with
    | nil =>
      rw [if_pos (show ('*' :: '*' :: c₀ :: m₃).isPrefixOf
          ([] ++ '*' :: '*' :: c₀ :: m₃) = true by
        simpa using isPrefixOf_append_self ('*' :: '*' :: c₀ :: m₃) [])]
      simp [List.drop_length]
    | cons d T'' =>
      have hpre : ¬(('*' :: '*' :: c₀ :: m₃).isPrefixOf
          ((d :: T'') ++ '*' :: '*' :: c₀ :: m₃) = true) := by
        intro hE
        obtain ⟨t, ht⟩ := (isPrefixOf_eq_true_iff _ _).mp hE
        rw [List.cons_append] at ht
        rw [show ('*' :: '*' :: c₀ :: m₃) ++ t =
          '*' :: '*' :: c₀ :: (m₃ ++ t) from rfl] at ht
        injection ht with h1 ht
        cases T'' with
        | nil =>
          rw [List.nil_append] at ht
          injection ht with _ ht
          injection ht with h3 _
          exact hc₀ h3.symm
        | cons e T₃ =>
          rw [List.cons_append] at ht
          injection ht with h2 _
          exact hnp [c] T₃ (by rw [h1, h2]; rfl)
      rw [if_neg hpre]
      rw [ih f (by simp) (fun x hx => hdot x (List.mem_cons_of_mem c hx))
        (noPair_tail hnp)
        (by simp at hlen ⊢; omega)]

theorem pairedReplace_pair (pre post T : List Char) (c₀ : Char)
    (m₃ : List Char) (hc₀ : c₀ ≠ '*') (hT0 : T ≠ [])
    (hdot : ∀ c ∈ T, dotOk c = true) (hnp : NoPair '*' '*' T) :
    pairedReplace ('*' :: '*' :: c₀ :: m₃) pre post
      (('*' :: '*' :: c₀ :: m₃) ++ T ++ '*' :: '*' :: c₀ :: m₃) =
      pre ++ T ++ post := by
  rw [List.append_assoc]
  have hpos : 1 ≤ (('*' :: '*' :: c₀ :: m₃) ++
    (T ++ '*' :: '*' :: c₀ :: m₃)).length := by simp
  obtain ⟨f, hf⟩ : ∃ f, (('*' :: '*' :: c₀ :: m₃) ++
      (T ++ '*' :: '*' :: c₀ :: m₃)).length = f + 1 :=
    ⟨(('*' :: '*' :: c₀ :: m₃) ++
      (T ++ '*' :: '*' :: c₀ :: m₃)).length - 1, by omega⟩
  unfold pairedReplace
  rw [hf]
  rw [show pairedGo ('*' :: '*' :: c₀ :: m₃) pre post (f + 1)
      (('*' :: '*' :: c₀ :: m₃) ++ (T ++ '*' :: '*' :: c₀ :: m₃)) =
    (if ('*' :: '*' :: c₀ :: m₃).isPrefixOf
        (('*' :: '*' :: c₀ :: m₃) ++ (T ++ '*' :: '*' :: c₀ :: m₃)) then
      match findLazy dotOk ('*' :: '*' :: c₀ :: m₃)
        ((('*' :: '*' :: c₀ :: m₃) ++
          (T ++ '*' :: '*' :: c₀ :: m₃)).drop
            ('*' :: '*' :: c₀ :: m₃).length) with
      | some (t, r) =>
        pre ++ t ++ post ++ pairedGo ('*' :: '*' :: c₀ :: m₃) pre post f r
      | none =>
        '*' :: pairedGo ('*' :: '*' :: c₀ :: m₃) pre post f
          (('*' :: c₀ :: m₃) ++ (T ++ '*' :: '*' :: c₀ :: m₃))
    else
      '*' :: pairedGo ('*' :: '*' :: c₀ :: m₃) pre post f
        (('*' :: c₀ :: m₃) ++ (T ++ '*' :: '*' :: c₀ :: m₃)))
    from rfl]
  rw [if_pos (isPrefixOf_append_self ('*' :: '*' :: c₀ :: m₃)
    (T ++ '*' :: '*' :: c₀ :: m₃))]
  rw [List.drop_left]
  rw [show findLazy dotOk ('*' :: '*' :: c₀ :: m₃)
      (T ++ '*' :: '*' :: c₀ :: m₃) =
    findLazyGo dotOk ('*' :: '*' :: c₀ :: m₃)
      (T ++ '*' :: '*' :: c₀ :: m₃).length (T ++ '*' :: '*' :: c₀ :: m₃)
    from rfl]
  rw [findLazy_pair c₀ m₃ hc₀ T (T ++ '*' :: '*' :: c₀ :: m₃).length hT0
    hdot hnp (le_refl _)]
  show pre ++ T ++ post ++
      pairedGo ('*' :: '*' :: c₀ :: m₃) pre post f [] =
    pre ++ T ++ post
  rw [pairedGo_nil]
  simp

theorem pairedReplace_id (marker pre post s : List Char)
    (h : ¬occursIn marker s) : pairedReplace marker pre post s = s :=
  pairedGo_id marker pre post s.length s h

theorem pairedGo_step_no (marker pre post : List Char) (f : Nat)
    (c : Char) (cs : List Char)
    (hpre : ¬(marker.isPrefixOf (c :: cs) = true)) :
    pairedGo marker pre post (f + 1) (c :: cs) =
      c :: pairedGo marker pre post f cs := by
  rw [show pairedGo marker pre post (f + 1) (c :: cs) =
    (if marker.isPrefixOf (c :: cs) then
      match findLazy dotOk marker ((c :: cs).drop marker.length) with
      | some (t, r) => pre ++ t ++ post ++ pairedGo marker pre post f r
      | none => c :: pairedGo marker pre post f cs
    else c :: pairedGo marker pre post f cs) from rfl]
  rw [if_neg hpre]

theorem pairedGo_step_noclose (marker pre post : List Char) (f : Nat)
    (c : Char) (cs : List Char)
    (hcl : findLazy dotOk marker ((c :: cs).drop marker.length) = none) :
    pairedGo marker pre post (f + 1) (c :: cs) =
      c :: pairedGo marker pre post f cs := by
  rw [show pairedGo marker pre post (f + 1) (c :: cs) =
    (if marker.isPrefixOf (c :: cs) then
      match findLazy dotOk marker ((c :: cs).drop marker.length) with
      | some (t, r) => pre ++ t ++ post ++ pairedGo marker pre post f r
      | none => c :: pairedGo marker pre post f cs
    else c :: pairedGo marker pre post f cs) from rfl]
  rw [hcl]
  by_cases hP : marker.isPrefixOf (c :: cs) = true
  · rw [if_pos hP]
  · rw [if_neg hP]

/-- Scanning the red rule over a star-pair-free string followed by the
yellow marker never matches: the red opener needs two adjacent
asterisks followed by the red tag characters, which that shape cannot
supply. -/
theorem pairedGo_red_tail :
    ∀ (S : List Char), NoPair '*' '*' S →
      pairedGo redMarker redPre redPost (S ++ yellowMarker).length
        (S ++ yellowMarker) = S ++ yellowMarker := by
  intro S
  induction S with
  | nil =>
    intro _
    decide
  | cons c S' ih =>
    intro hnp
    have hpre : ¬(redMarker.isPrefixOf ((c :: S') ++ yellowMarker) = true) := by
      intro hE
      obtain ⟨t, ht⟩ := (isPrefixOf_eq_true_iff _ _).mp hE
      rw [List.cons_append] at ht
      rw [show redMarker ++ t =
        '*' :: '*' :: '紅' :: '字' :: '*' :: '*' :: t from rfl] at ht
      injection ht with h1 ht
      cases S' with
      | nil =>
        rw [List.nil_append] at ht
        rw [show yellowMarker =
          '*' :: '*' :: '黃' :: '底' :: '*' :: '*' :: ([] : List Char)
          from rfl] at ht
        injection ht with _ ht
        injection ht with h3 _
        exact absurd h3 (by decide)
      | cons d S'' =>
        rw [List.cons_append] at ht
        injection ht with h2 _
        exact hnp [] S'' (by rw [h1, h2]; rfl)
    exact (pairedGo_step_no redMarker redPre redPost
        (S' ++ yellowMarker).length c (S' ++ yellowMarker) hpre).trans
      (congrArg (List.cons c) (ih (noPair_tail hnp)))

/-- The red rule is the identity on a yellow-tagged text whose body has
no two adjacent asterisks: the red opener can occur at most once (when
the body starts with the red tag characters), so the closing occurrence
the rule needs is never found. -/
theorem paired_red_on_yellow (T : List Char) (hnp : NoPair '*' '*' T) :
    pairedReplace redMarker redPre redPost
      (yellowMarker ++ T ++ yellowMarker) =
      yellowMarker ++ T ++ yellowMarker := by
  have h6 : pairedGo redMarker redPre redPost
      (T ++ yellowMarker).length (T ++ yellowMarker) = T ++ yellowMarker :=
    pairedGo_red_tail T hnp
  have hstep5 : pairedGo redMarker redPre redPost
      ((T ++ yellowMarker).length + 1) ('*' :: (T ++ yellowMarker)) =
      '*' :: pairedGo redMarker redPre redPost
        (T ++ yellowMarker).length (T ++ yellowMarker) := by
    cases hP : redMarker.isPrefixOf ('*' :: (T ++ yellowMarker)) with
    | false =>
      exact pairedGo_step_no _ _ _ _ _ _ (by rw [hP]; decide)
    | true =>
      obtain ⟨t, ht⟩ := (isPrefixOf_eq_true_iff _ _).mp hP
      rw [show redMarker ++ t =
        '*' :: '*' :: '紅' :: '字' :: '*' :: '*' :: t from rfl] at ht
      injection ht with _ ht
      rcases T with _ | ⟨a, T1⟩
      · rw [List.nil_append] at ht
        rw [show yellowMarker =
          '*' :: '*' :: '黃' :: '底' :: '*' :: '*' :: ([] : List Char)
          from rfl] at ht
        injection ht with _ ht
        injection ht with h2 _
        exact absurd h2 (by decide)
      · rw [List.cons_append] at ht
        injection ht with h1 ht
        rcases T1 with _ | ⟨b, T2⟩
        · rw [List.nil_append] at ht
          rw [show yellowMarker =
            '*' :: '*' :: '黃' :: '底' :: '*' :: '*' :: ([] : List Char)
            from rfl] at ht
          injection ht with h2 _
          exact absurd h2 (by decide)
        · rw [List.cons_append] at ht
          injection ht with h2 ht
          rcases T2 with _ | ⟨e, T3⟩
          · rw [List.nil_append] at ht
            rw [show yellowMarker =
              '*' :: '*' :: '黃' :: '底' :: '*' :: '*' :: ([] : List Char)
              from rfl] at ht
            injection ht with h3 _
            exact absurd h3 (by decide)
          · rw [List.cons_append] at ht
            injection ht with h3 ht
            rcases T3 with _ | ⟨g, T4⟩
            · subst h1; subst h2; subst h3
              exact pairedGo_step_noclose _ _ _ _ _ _ (by decide)
            · rw [List.cons_append] at ht
              injection ht with h4 ht
              rcases T4 with _ | ⟨k, T5⟩
              · subst h1; subst h2; subst h3; subst h4
                exact pairedGo_step_noclose _ _ _ _ _ _ (by decide)
              · rw [List.cons_append] at ht
                injection ht with h5x _
                exact (hnp ['*', '紅', '字'] T5
                  (by rw [h1, h2, h3, h4, h5x]; rfl)).elim
  have h5 : pairedGo redMarker redPre redPost
      ((T ++ yellowMarker).length + 1) ('*' :: (T ++ yellowMarker)) =
      '*' :: (T ++ yellowMarker) :=
    hstep5.trans (congrArg (List.cons '*') h6)
  have hstep4 : pairedGo redMarker redPre redPost
      ((T ++ yellowMarker).length + 2) ('*' :: '*' :: (T ++ yellowMarker)) =
      '*' :: pairedGo redMarker redPre redPost
        ((T ++ yellowMarker).length + 1) ('*' :: (T ++ yellowMarker)) := by
    cases hP : redMarker.isPrefixOf ('*' :: '*' :: (T ++ yellowMarker)) with
    | false =>
      exact pairedGo_step_no _ _ _ _ _ _ (by rw [hP]; decide)
    | true =>
      obtain ⟨t, ht⟩ := (isPrefixOf_eq_true_iff _ _).mp hP
      rw [show redMarker ++ t =
        '*' :: '*' :: '紅' :: '字' :: '*' :: '*' :: t from rfl] at ht
      injection ht with _ ht
      injection ht with _ ht
      rcases T with _ | ⟨a, T1⟩
      · rw [List.nil_append] at ht
        rw [show yellowMarker =
          '*' :: '*' :: '黃' :: '底' :: '*' :: '*' :: ([] : List Char)
          from rfl] at ht
        injection ht with h1 _
        exact absurd h1 (by decide)
      · rw [List.cons_append] at ht
        injection ht with h1 ht
        rcases T1 with _ | ⟨b, T2⟩
        · rw [List.nil_append] at ht
          rw [show yellowMarker =
            '*' :: '*' :: '黃' :: '底' :: '*' :: '*' :: ([] : List Char)
            from rfl] at ht
          injection ht with h2 _
          exact absurd h2 (by decide)
        · rw [List.cons_append] at ht
          injection ht with h2 ht
          rcases T2 with _ | ⟨e, T3⟩
          · subst h1; subst h2
            exact pairedGo_step_noclose _ _ _ _ _ _ (by decide)
          · rw [List.cons_append] at ht
            injection ht with h3 ht
            rcases T3 with _ | ⟨g, T4⟩
            · subst h1; subst h2; subst h3
              exact pairedGo_step_noclose _ _ _ _ _ _ (by decide)
            · rw [List.cons_append] at ht
              injection ht with h4 _
              exact (hnp ['紅', '字'] T4
                (by rw [h1, h2, h3, h4]; rfl)).elim
  have h4 : pairedGo redMarker redPre redPost
      ((T ++ yellowMarker).length + 2) ('*' :: '*' :: (T ++ yellowMarker)) =
      '*' :: '*' :: (T ++ yellowMarker) :=
    hstep4.trans (congrArg (List.cons '*') h5)
  have h3 : pairedGo redMarker redPre redPost
      ((T ++ yellowMarker).length + 3)
      ('底' :: '*' :: '*' :: (T ++ yellowMarker)) =
      '底' :: '*' :: '*' :: (T ++ yellowMarker) :=
    (pairedGo_step_no redMarker redPre redPost
        ((T ++ yellowMarker).length + 2) '底'
        ('*' :: '*' :: (T ++ yellowMarker))
        (by rw [show redMarker.isPrefixOf
          ('底' :: '*' :: '*' :: (T ++ yellowMarker)) = false from rfl]; decide)).trans
      (congrArg (List.cons '底') h4)
  have h2 : pairedGo redMarker redPre redPost
      ((T ++ yellowMarker).length + 4)
      ('黃' :: '底' :: '*' :: '*' :: (T ++ yellowMarker)) =
      '黃' :: '底' :: '*' :: '*' :: (T ++ yellowMarker) :=
    (pairedGo_step_no redMarker redPre redPost
        ((T ++ yellowMarker).length + 3) '黃'
        ('底' :: '*' :: '*' :: (T ++ yellowMarker))
        (by rw [show redMarker.isPrefixOf
          ('黃' :: '底' :: '*' :: '*' :: (T ++ yellowMarker)) = false
          from rfl]; decide)).trans
      (congrArg (List.cons '黃') h3)
  have h1 : pairedGo redMarker redPre redPost
      ((T ++ yellowMarker).length + 5)
      ('*' :: '黃' :: '底' :: '*' :: '*' :: (T ++ yellowMarker)) =
      '*' :: '黃' :: '底' :: '*' :: '*' :: (T ++ yellowMarker) :=
    (pairedGo_step_no redMarker redPre redPost
        ((T ++ yellowMarker).length + 4) '*'
        ('黃' :: '底' :: '*' :: '*' :: (T ++ yellowMarker))
        (by rw [show redMarker.isPrefixOf
          ('*' :: '黃' :: '底' :: '*' :: '*' :: (T ++ yellowMarker)) = false
          from rfl]; decide)).trans
      (congrArg (List.cons '*') h2)
  have h0 : pairedGo redMarker redPre redPost
      ((T ++ yellowMarker).length + 6)
      ('*' :: '*' :: '黃' :: '底' :: '*' :: '*' :: (T ++ yellowMarker)) =
      '*' :: '*' :: '黃' :: '底' :: '*' :: '*' :: (T ++ yellowMarker) :=
    (pairedGo_step_no redMarker redPre redPost
        ((T ++ yellowMarker).length + 5) '*'
        ('*' :: '黃' :: '底' :: '*' :: '*' :: (T ++ yellowMarker))
        (by rw [show redMarker.isPrefixOf
          ('*' :: '*' :: '黃' :: '底' :: '*' :: '*' :: (T ++ yellowMarker)) =
          false from rfl]; decide)).trans
      (congrArg (List.cons '*') h1)
  exact h0

theorem dotOk_no_nl {c : Char} (h : dotOk c = true) :
    c ≠ '\n' ∧ c ≠ '\r' := by
  simp [dotOk] at h
  exact ⟨h.1.1.1, h.1.1.2⟩

/-- Common tail of the converter on a span `<...>TEXT</span>` free of
adjacent star pairs, brackets and line terminators: every later stage
is the identity. -/
theorem tail_stages_id (s : List Char)
    (hstar : NoPair '*' '*' s) (hbr : '[' ∉ s)
    (hdot : ∀ c ∈ s, dotOk c = true)
    (hlt : ∃ xs, s = '<' :: xs)
    (hnp : NoPair '<' 'l' s) :
    replaceAll "</ul><br>\n".data "</ul>".data
      (replaceAll "<br>\n<ul>".data "<ul>".data
        (newlineStage (ulWrap (listStage (linkReplace (boldReplace s)))))) =
      s := by
  have hnl : ∀ c ∈ s, c ≠ '\n' ∧ c ≠ '\r' := fun c hc => dotOk_no_nl (hdot c hc)
  rw [show boldReplace s = boldGo s.length s from rfl,
    boldGo_id s.length s hstar]
  rw [show linkReplace s = linkGo s.length s from rfl,
    linkGo_id s.length s hbr]
  obtain ⟨xs, rfl⟩ := hlt
  rw [listStage_all_dot '<' xs hdot, lineLi_lt]
  rw [show ulWrap ('<' :: xs) = ulGo ('<' :: xs).length ('<' :: xs) from rfl,
    ulGo_id ('<' :: xs).length ('<' :: xs) hnp]
  rw [show newlineStage ('<' :: xs) =
    newlineGo ('<' :: xs).length ('<' :: xs) from rfl,
    newlineGo_id ('<' :: xs).length ('<' :: xs) hnl]
  rw [replaceAll_id _ _ _ (not_occurs_of_mem_absent
    (show '\n' ∈ "<br>\n<ul>".data by decide)
    (fun hm => (hnl '\n' hm).1 rfl))]
  rw [replaceAll_id _ _ _ (not_occurs_of_mem_absent
    (show '\n' ∈ "</ul><br>\n".data by decide)
    (fun hm => (hnl '\n' hm).1 rfl))]

/-- C8 (amended): for every nonempty TEXT that does not contain the
double-asterisk delimiter (no two adjacent asterisks), whose characters
are all matched by the regexp dot (no line terminators), and which
avoids the characters rewritten by the escaping and link stages
(ampersand, angle brackets, opening square bracket), the paired
colored-marker rules consume their pairs before the generic bold rule
ever sees them: the red pair renders as the red highlight span and the
yellow pair as the yellow highlight span, never as strong markup.
Isolated single asterisks and the marker characters themselves (such as
a lone red tag character) are allowed in TEXT. -/
theorem colored_markers_amended (T : List Char) (hT0 : T ≠ [])
    (hnpT : NoPair '*' '*' T)
    (hT : ∀ c ∈ T, dotOk c = true ∧ c ≠ '&' ∧ c ≠ '<' ∧ c ≠ '>' ∧
      c ≠ '[') :
    markdownToHtml (redMarker ++ T ++ redMarker) = redPre ++ T ++ redPost ∧
    markdownToHtml (yellowMarker ++ T ++ yellowMarker) =
      yellowPre ++ T ++ yellowPost := by
  have mem3 : ∀ {c : Char} {a b : List Char},
      c ∈ (a ++ T) ++ b → c ∈ a ∨ c ∈ T ∨ c ∈ b := by
    intro c a b hm
    rcases List.mem_append.mp hm with hm | hm
    · rcases List.mem_append.mp hm with hm | hm
      · exact Or.inl hm
      · exact Or.inr (Or.inl hm)
    · exact Or.inr (Or.inr hm)
  have hdotT : ∀ c ∈ T, dotOk c = true := fun c hc => (hT c hc).1
  constructor
  · -- red pair
    have hne : (redMarker ++ T ++ redMarker) ≠ [] := by simp [redMarker]
    have hamp : '&' ∉ redMarker ++ T ++ redMarker := fun hm =>
      (mem3 hm).elim (fun h => absurd h (by decide))
        (fun h => h.elim (fun h => (hT _ h).2.1 rfl)
          (fun h => absurd h (by decide)))
    have hltc : '<' ∉ redMarker ++ T ++ redMarker := fun hm =>
      (mem3 hm).elim (fun h => absurd h (by decide))
        (fun h => h.elim (fun h => (hT _ h).2.2.1 rfl)
          (fun h => absurd h (by decide)))
    have hgtc : '>' ∉ redMarker ++ T ++ redMarker := fun hm =>
      (mem3 hm).elim (fun h => absurd h (by decide))
        (fun h => h.elim (fun h => (hT _ h).2.2.2.1 rfl)
          (fun h => absurd h (by decide)))
    have hnp_span : NoPair '*' '*' (redPre ++ T ++ redPost) := by
      rw [List.append_assoc]
      apply noPair_append
      · exact noPair_of_not_mem_left (by decide)
      · apply noPair_append
        · exact hnpT
        · exact noPair_of_not_mem_left (by decide)
        · intro a' ha' w hw
          have h := congrArg List.head? hw
          rw [show List.head? ('*' :: w) = some '*' from rfl] at h
          exact absurd h (by decide)
      · intro a' ha' w hw
        have hl := congrArg List.getLast? ha'
        rw [List.getLast?_concat] at hl
        exact absurd hl (by decide)
    have hbr_span : '[' ∉ redPre ++ T ++ redPost := fun hm =>
      (mem3 hm).elim (fun h => absurd h (by decide))
        (fun h => h.elim (fun h => (hT _ h).2.2.2.2 rfl)
          (fun h => absurd h (by decide)))
    have hdotPreR : ∀ c ∈ redPre, dotOk c = true := by decide
    have hdotPostR : ∀ c ∈ redPost, dotOk c = true := by decide
    have hdot_span : ∀ c ∈ redPre ++ T ++ redPost, dotOk c = true := by
      intro c hm
      rcases mem3 hm with h | h | h
      exacts [hdotPreR c h, hdotT c h, hdotPostR c h]
    have hnp : NoPair '<' 'l' (redPre ++ T ++ redPost) := by
      rw [List.append_assoc]
      apply noPair_append
      · exact (noPairB_iff _ _ _).mp (by decide)
      · apply noPair_append
        · exact noPair_of_not_mem_left (fun hm => (hT _ hm).2.2.1 rfl)
        · exact (noPairB_iff _ _ _).mp (by decide)
        · intro a' ha' w hw
          exact (hT '<' (ha' ▸ List.mem_append.mpr
            (Or.inr (List.mem_cons_self _ _)))).2.2.1 rfl
      · intro a' ha' w hw
        have hl := congrArg List.getLast? ha'
        rw [List.getLast?_concat] at hl
        exact absurd hl (by decide)
    rw [show markdownToHtml (redMarker ++ T ++ redMarker) =
      replaceAll "</ul><br>\n".data "</ul>".data
        (replaceAll "<br>\n<ul>".data "<ul>".data
          (newlineStage (ulWrap (listStage (linkReplace (boldReplace
            (pairedReplace yellowMarker yellowPre yellowPost
              (pairedReplace redMarker redPre redPost
                (replaceAll ['>'] "&gt;".data
                  (replaceAll ['<'] "&lt;".data
                    (replaceAll ['&'] "&amp;".data
                      (redMarker ++ T ++ redMarker))))))))))))
      from by
        unfold markdownToHtml
        rw [if_neg hne]]
    rw [replaceAll_id ['&'] _ _ (not_occurs_of_mem_absent
      (show '&' ∈ ['&'] by decide) hamp)]
    rw [replaceAll_id ['<'] _ _ (not_occurs_of_mem_absent
      (show '<' ∈ ['<'] by decide) hltc)]
    rw [replaceAll_id ['>'] _ _ (not_occurs_of_mem_absent
      (show '>' ∈ ['>'] by decide) hgtc)]
    rw [show redMarker = '*' :: '*' :: '紅' :: "字**".data by decide]
    rw [pairedReplace_pair redPre redPost T '紅' "字**".data
      (by decide) hT0 hdotT hnpT]
    rw [pairedReplace_id yellowMarker yellowPre yellowPost _
      (show ¬occursIn yellowMarker (redPre ++ T ++ redPost) from
        noPair_not_occurs hnp_span)]
    exact tail_stages_id _ hnp_span hbr_span hdot_span
      ⟨("span style=\"background-color:#ffff00; color:#cc0000; font-weight:bold;\">".data ++ T) ++ redPost, rfl⟩
      hnp
  · -- yellow pair
    have hne : (yellowMarker ++ T ++ yellowMarker) ≠ [] := by
      simp [yellowMarker]
    have hamp : '&' ∉ yellowMarker ++ T ++ yellowMarker := fun hm =>
      (mem3 hm).elim (fun h => absurd h (by decide))
        (fun h => h.elim (fun h => (hT _ h).2.1 rfl)
          (fun h => absurd h (by decide)))
    have hltc : '<' ∉ yellowMarker ++ T ++ yellowMarker := fun hm =>
      (mem3 hm).elim (fun h => absurd h (by decide))
        (fun h => h.elim (fun h => (hT _ h).2.2.1 rfl)
          (fun h => absurd h (by decide)))
    have hgtc : '>' ∉ yellowMarker ++ T ++ yellowMarker := fun hm =>
      (mem3 hm).elim (fun h => absurd h (by decide))
        (fun h => h.elim (fun h => (hT _ h).2.2.2.1 rfl)
          (fun h => absurd h (by decide)))
    have hnp_span : NoPair '*' '*' (yellowPre ++ T ++ yellowPost) := by
      rw [List.append_assoc]
      apply noPair_append
      · exact noPair_of_not_mem_left (by decide)
      · apply noPair_append
        · exact hnpT
        · exact noPair_of_not_mem_left (by decide)
        · intro a' ha' w hw
          have h := congrArg List.head? hw
          rw [show List.head? ('*' :: w) = some '*' from rfl] at h
          exact absurd h (by decide)
      · intro a' ha' w hw
        have hl := congrArg List.getLast? ha'
        rw [List.getLast?_concat] at hl
        exact absurd hl (by decide)
    have hbr_span : '[' ∉ yellowPre ++ T ++ yellowPost := fun hm =>
      (mem3 hm).elim (fun h => absurd h (by decide))
        (fun h => h.elim (fun h => (hT _ h).2.2.2.2 rfl)
          (fun h => absurd h (by decide)))
    have hdotPreY : ∀ c ∈ yellowPre, dotOk c = true := by decide
    have hdotPostY : ∀ c ∈ yellowPost, dotOk c = true := by decide
    have hdot_span : ∀ c ∈ yellowPre ++ T ++ yellowPost,
        dotOk c = true := by
      intro c hm
      rcases mem3 hm with h | h | h
      exacts [hdotPreY c h, hdotT c h, hdotPostY c h]
    have hnp : NoPair '<' 'l' (yellowPre ++ T ++ yellowPost) := by
      rw [List.append_assoc]
      apply noPair_append
      · exact (noPairB_iff _ _ _).mp (by decide)
      · apply noPair_append
        · exact noPair_of_not_mem_left (fun hm => (hT _ hm).2.2.1 rfl)
        · exact (noPairB_iff _ _ _).mp (by decide)
        · intro a' ha' w hw
          exact (hT '<' (ha' ▸ List.mem_append.mpr
            (Or.inr (List.mem_cons_self _ _)))).2.2.1 rfl
      · intro a' ha' w hw
        have hl := congrArg List.getLast? ha'
        rw [List.getLast?_concat] at hl
        exact absurd hl (by decide)
    rw [show markdownToHtml (yellowMarker ++ T ++ yellowMarker) =
      replaceAll "</ul><br>\n".data "</ul>".data
        (replaceAll "<br>\n<ul>".data "<ul>".data
          (newlineStage (ulWrap (listStage (linkReplace (boldReplace
            (pairedReplace yellowMarker yellowPre yellowPost
              (pairedReplace redMarker redPre redPost
                (replaceAll ['>'] "&gt;".data
                  (replaceAll ['<'] "&lt;".data
                    (replaceAll ['&'] "&amp;".data
                      (yellowMarker ++ T ++ yellowMarker))))))))))))
      from by
        unfold markdownToHtml
        rw [if_neg hne]]
    rw [replaceAll_id ['&'] _ _ (not_occurs_of_mem_absent
      (show '&' ∈ ['&'] by decide) hamp)]
    rw [replaceAll_id ['<'] _ _ (not_occurs_of_mem_absent
      (show '<' ∈ ['<'] by decide) hltc)]
    rw [replaceAll_id ['>'] _ _ (not_occurs_of_mem_absent
      (show '>' ∈ ['>'] by decide) hgtc)]
    rw [paired_red_on_yellow T hnpT]
    rw [show yellowMarker = '*' :: '*' :: '黃' :: "底**".data by decide]
    rw [pairedReplace_pair yellowPre yellowPost T '黃' "底**".data
      (by decide) hT0 hdotT hnpT]
    exact tail_stages_id _ hnp_span hbr_span hdot_span
      ⟨("span style=\"background-color:#ffff00; color:#000000; font-weight:bold;\">".data ++ T) ++ yellowPost, rfl⟩
      hnp

theorem colored_markers_amended_w :
    markdownToHtml (redMarker ++ "x*y紅".data ++ redMarker) =
      redPre ++ "x*y紅".data ++ redPost ∧
    markdownToHtml (yellowMarker ++ "x*y紅".data ++ yellowMarker) =
      yellowPre ++ "x*y紅".data ++ yellowPost :=
  colored_markers_amended "x*y紅".data (by decide)
    ((noPairB_iff '*' '*' "x*y紅".data).mp (by decide)) (by decide)

/-- C8 (counterexample to the claim as stated): TEXT = "\n" contains no
`**`, yet the colored rule cannot match across the newline (the regexp
dot excludes line terminators), so the generic bold rule consumes the
`**` pairs and the output is strong markup, not the red span. -/
theorem colored_markers_counterexample :
    markdownToHtml "**紅字**\n**紅字**".data =
      "<strong>紅字</strong><br>\n<strong>紅字</strong>".data ∧
    markdownToHtml "**紅字**\n**紅字**".data ≠
      redPre ++ "\n".data ++ redPost := by
  constructor <;> decide
